import Mathlib

/-!
# Font registry: matching and caching

A shallow embedding of `src/createFontRegistry.js`.

* JavaScript `Map`s with string keys are association lists (`JSMap`): `get`
  returns the value of the first entry with the key, `set` replaces the value
  of an existing key in place and appends a new key at the end.
* The registry object is a closure over `fonts` (never written) and `cache`
  (written by `lookup`); here every operation takes the registry and the
  current cache and, when it can write, returns the new cache.
* Weights are integers that a JavaScript number holds exactly; `${weight}` is
  their decimal rendering, and their difference is rounded as a double is.
* `Array.prototype.sort` is an insertion sort; the comparator never answers 0
  on two different indices, so every sort gives the same order.
* `console.error` only reports; it is not part of the state.
* Style objects are association lists of property names and values; an object
  literal sets its properties in the order in which they are written.
* `Platform.select` comes from `react-native`; it is modelled on the two
  platforms that `createFontStyles` writes an object for.
-/

namespace FontRegistry

/-! ## JavaScript values and maps -/

/-- The values that reach a template literal of `generateFontCacheKey`. -/
inductive JSValue where
  | undefined : JSValue
  | str : String → JSValue
  | num : Int → JSValue
  deriving DecidableEq, Repr

/-- Conversion to a string as a template literal does it. -/
def JSValue.toTemplate : JSValue → String
  | .undefined => "undefined"
  | .str s => s
  | .num n => toString n

/-- An optional string property read without a default. -/
def JSValue.ofStr? : Option String → JSValue
  | none => .undefined
  | some s => .str s

/-- An optional numeric property read without a default. -/
def JSValue.ofNum? : Option Int → JSValue
  | none => .undefined
  | some n => .num n

/-- A `Map` with string keys, as the list of its entries in insertion order. -/
abbrev JSMap (β : Type) := List (String × β)

/-- The entry read by `Map.prototype.get`. -/
def JSMap.get {β : Type} : JSMap β → String → Option β
  | [], _ => none
  | (k', v) :: rest, k => if k' = k then some v else JSMap.get rest k

/-- The update of `Map.prototype.set`. -/
def JSMap.set {β : Type} : JSMap β → String → β → JSMap β
  | [], k, v => [(k, v)]
  | (k', v') :: rest, k, v =>
    if k' = k then (k, v) :: rest else (k', v') :: JSMap.set rest k v

/-- The map built by `new Map(entries)`: the entries are set one after another. -/
def JSMap.ofEntries {β : Type} (entries : List (String × β)) : JSMap β :=
  entries.foldl (fun m e => m.set e.1 e.2) []

/-! ## Data model -/

/-- The type `FontFileDefinition`: every property is optional. -/
structure FontFileDefinition where
  name : Option String
  fileName : Option String
  postScriptName : Option String
  weight : Option Int
  style : Option String
  deriving DecidableEq, Repr

/-- The `fonts` map of a registry: family name to its font files in order. -/
abbrev Fonts := JSMap (List FontFileDefinition)

/-- The `cache` map of a registry: cache key to font file. -/
abbrev FontCache := JSMap FontFileDefinition

/-- The options object of `lookup`; an absent property takes its default. -/
structure LookupOptions where
  style : Option String
  weight : Option Int
  ignoreCache : Option Bool
  deriving DecidableEq, Repr

/-- An element of `fontFilesWithIndex`. -/
structure IndexedFontFile where
  file : FontFileDefinition
  index : Nat
  deriving DecidableEq, Repr

/-! ## Operations -/

/-- The constant `FONT_CACHE_KEY_SEPARATOR`. -/
def FONT_CACHE_KEY_SEPARATOR : String := "~~~"

/-- The function `generateFontCacheKey`: the three arguments joined by the separator. -/
def generateFontCacheKey (family style weight : JSValue) : String :=
  family.toTemplate ++ FONT_CACHE_KEY_SEPARATOR ++ style.toTemplate ++
    FONT_CACHE_KEY_SEPARATOR ++ weight.toTemplate

/-- The entries handed to `new Map` in `createFontRegistry`: for each family in
turn, one entry per file, keyed by the file's own `style` and `weight` as read
from the object. -/
def cacheEntries (fonts : Fonts) : List (String × FontFileDefinition) :=
  fonts.foldl
    (fun cacheEntries entry =>
      cacheEntries ++ entry.2.map (fun file =>
        (generateFontCacheKey (.str entry.1) (JSValue.ofStr? file.style)
          (JSValue.ofNum? file.weight), file)))
    []

/-- The cache that `createFontRegistry` builds for a registry. -/
def createFontRegistry (fonts : Fonts) : FontCache :=
  JSMap.ofEntries (cacheEntries fonts)

/-- The function `findInCache`: the exact entry of the key, or null. -/
def findInCache (cache : FontCache) (family style : String) (weight : Int) :
    Option FontFileDefinition :=
  cache.get (generateFontCacheKey (.str family) (.str style) (.num weight))

/-- The style distance of the comparator: exact match 0, `normal` 1, else 2. -/
def styleDistance (style : String) (file : FontFileDefinition) : Nat :=
  let styleA := file.style.getD "normal"
  if styleA = style then 0 else if styleA = "normal" then 1 else 2

/-- The number of low bits that a JavaScript number drops from a natural
number: the least `e` with `n / 2 ^ e < 2 ^ 53`, searched with `fuel` steps. -/
def droppedBits : Nat → Nat → Nat
  | 0, _ => 0
  | fuel + 1, n => if n < 2 ^ 53 then 0 else droppedBits fuel (n / 2) + 1

/-- A natural number as the nearest JavaScript number (a binary64 double): 53
significant bits, a tie goes to the even significand. A result of `2 ^ 1024` or
more is `Infinity`, for which `2 ^ 1024` stands; the significand is at least
`2 ^ 52` when bits are dropped, so that is the case from 972 dropped bits on,
and at 971 when the significand rounds up to `2 ^ 53`. -/
def roundToDouble (n : Nat) : Nat :=
  let e := droppedBits n n
  let q := n / 2 ^ e
  let r := n % 2 ^ e
  let significand := if 2 * r > 2 ^ e ∨ (2 * r = 2 ^ e ∧ q % 2 = 1) then q + 1 else q
  if e ≥ 972 ∨ (e = 971 ∧ significand = 2 ^ 53) then 2 ^ 1024 else significand * 2 ^ e

/-- The weight distance of the comparator: `Math.abs(weightA - weight)`, where
the subtraction of two integers that JavaScript numbers hold exactly gives the
nearest JavaScript number to the difference. -/
def weightDistance (weight : Int) (file : FontFileDefinition) : Nat :=
  let weightA := file.weight.getD 400
  roundToDouble (weightA - weight).natAbs

/-- The comparator handed to `sort` in `lookup`. -/
def compareFontFiles (style : String) (weight : Int) (a b : IndexedFontFile) : Int :=
  let styleDistanceA := styleDistance style a.file
  let styleDistanceB := styleDistance style b.file
  let weightDistanceA := weightDistance weight a.file
  let weightDistanceB := weightDistance weight b.file
  if styleDistanceA ≠ styleDistanceB then
    if styleDistanceA > styleDistanceB then 1 else -1
  else if weightDistanceA ≠ weightDistanceB then
    if weightDistanceA > weightDistanceB then 1 else -1
  else
    if a.index > b.index then 1 else -1

/-- The array `fontFilesWithIndex` of `lookup` after the sort. The sort is an
insertion sort that puts `a` before `b` when the comparator is negative. -/
def sortedFontFiles (style : String) (weight : Int) (files : List FontFileDefinition) :
    List IndexedFontFile :=
  (files.mapIdx (fun index file => IndexedFontFile.mk file index)).insertionSort
    (fun a b => compareFontFiles style weight a b < 0)

/-- The best-ranked file: the first element of the sorted array. -/
def bestMatch (style : String) (weight : Int) (files : List FontFileDefinition) :
    Option FontFileDefinition :=
  (sortedFontFiles style weight files).head?.map (fun e => e.file)

/-- The function `lookup`: the result and the cache after the call. An unset
family is `none`; `fonts.has(family)` fails when `fonts.get` finds no entry. The
sorted array is as long as the list of the family, which the guard has found
non-empty, so the empty case of the match on it is never taken. -/
def lookup (fonts : Fonts) (cache : FontCache) (family : Option String)
    (options : LookupOptions) : Option FontFileDefinition × FontCache :=
  let style := options.style.getD "normal"
  let weight := options.weight.getD 400
  let ignoreCache := options.ignoreCache.getD false
  match family with
  | none => (none, cache)
  | some family =>
    if family = "" then (none, cache)
    else
      match fonts.get family with
      | none => (none, cache)
      | some files =>
        if files.length = 0 then (none, cache)
        else
          match (if ignoreCache then none
                 else cache.get (generateFontCacheKey (.str family) (.num weight) (.str style))) with
          | some cachedFont => (some cachedFont, cache)
          | none =>
            match sortedFontFiles style weight files with
            | [] => (none, cache)
            | first :: _ =>
              let fontFile := first.file
              if ignoreCache then (some fontFile, cache)
              else
                (some fontFile,
                  cache.set (generateFontCacheKey (.str family) (.str style) (.num weight)) fontFile)

/-- The cache after a sequence of `lookup` calls, made in order. -/
def runLookups (fonts : Fonts) (cache : FontCache) :
    List (Option String × LookupOptions) → FontCache
  | [] => cache
  | call :: calls => runLookups fonts (lookup fonts cache call.1 call.2).2 calls

/-- Modelled from the spec: the platform tag that `Platform.select` of
`react-native` reads, which is not part of this repository. `android` is the
platform that takes a file name, `ios` the one that takes a display name with
an explicit weight and style. -/
inductive Platform where
  | android : Platform
  | ios : Platform
  deriving DecidableEq, Repr

/-- Modelled from the spec: `Platform.select` of `react-native`, which is not
part of this repository, returns the property of its argument that is named
after the platform. -/
def Platform.select {α : Type} (platform : Platform) (android ios : α) : α :=
  match platform with
  | .android => android
  | .ios => ios

/-- A style object: property names with their values, in insertion order. -/
abbrev JSObject := JSMap JSValue

/-- The second argument of `createFontStyles`: `style`, `weight` and, in
`rest`, the properties with other names. -/
structure FontStyleOptions where
  style : Option String
  weight : Option Int
  rest : JSObject
  deriving DecidableEq, Repr

/-- The expression `a || b` on optional strings: `a` unless it is missing or
the empty string. -/
def strOr (a b : Option String) : Option String :=
  match a with
  | some s => if s = "" then b else some s
  | none => b

/-- The object literal `{ ...base, ...rest }`: the properties of `rest` are
set, in order, on the properties written before the spread. -/
def spreadInto (base rest : JSObject) : JSObject :=
  rest.foldl (fun o e => o.set e.1 e.2) base

/-- The text of `fontFile.weight || 400` in a template literal: 400 when the
weight is missing or 0. -/
def fontWeightText (fontFile : FontFileDefinition) : String :=
  match fontFile.weight with
  | some w => if w = 0 then toString (400 : Int) else toString w
  | none => toString (400 : Int)

/-- The text of `fontFile.style || 'normal'` in a template literal. -/
def fontStyleText (fontFile : FontFileDefinition) : String :=
  (strOr fontFile.style (some "normal")).getD "normal"

/-- The function `createFontStyles`: the style object and the cache after the
call. The third argument is the value of `ignoreCache` in `lookupOptions`. -/
def createFontStyles (platform : Platform) (fonts : Fonts) (cache : FontCache)
    (family : Option String) (options : FontStyleOptions) (ignoreCache : Option Bool) :
    JSObject × FontCache :=
  let style := options.style.getD "normal"
  let weight := options.weight.getD 400
  let ignoreCache := ignoreCache.getD false
  let found := lookup fonts cache family ⟨some style, some weight, some ignoreCache⟩
  match found.1 with
  | none => (spreadInto [] options.rest, found.2)
  | some fontFile =>
    let fileName := strOr fontFile.fileName fontFile.name
    let postScriptName := strOr fontFile.postScriptName fontFile.name
    (platform.select
      (spreadInto [("fontFamily", JSValue.ofStr? fileName)] options.rest)
      (spreadInto
        [("fontFamily", JSValue.ofStr? postScriptName),
         ("fontWeight", JSValue.str (fontWeightText fontFile)),
         ("fontStyle", JSValue.str (fontStyleText fontFile))]
        options.rest),
      found.2)

/-- The names of the properties that `createFontStyles` writes for a platform. -/
def fontStyleKeys (platform : Platform) : List String :=
  platform.select ["fontFamily"] ["fontFamily", "fontWeight", "fontStyle"]

/-- A call of one of the three methods of a registry, with its arguments. -/
inductive Call where
  | findInCacheCall (family style : String) (weight : Int) : Call
  | lookupCall (family : Option String) (options : LookupOptions) : Call
  | createFontStylesCall (platform : Platform) (family : Option String)
      (options : FontStyleOptions) (ignoreCache : Option Bool) : Call
  deriving DecidableEq, Repr

/-- The cache after a call: `findInCache` only reads it. -/
def Call.run (fonts : Fonts) (cache : FontCache) : Call → FontCache
  | .findInCacheCall _ _ _ => cache
  | .lookupCall family options => (lookup fonts cache family options).2
  | .createFontStylesCall platform family options ignoreCache =>
    (createFontStyles platform fonts cache family options ignoreCache).2

/-- The cache after a sequence of calls, made in order. -/
def runCalls (fonts : Fonts) (cache : FontCache) : List Call → FontCache
  | [] => cache
  | call :: calls => runCalls fonts (call.run fonts cache) calls

/-- A font file that is in the list of some family of the registry. -/
def Registered (fonts : Fonts) (d : FontFileDefinition) : Prop :=
  ∃ e ∈ fonts, d ∈ e.2

/-- A cache key whose text after the last separator is a rendered weight: the
text of an integer or, for an omitted weight, "undefined". -/
def WeightKeyed (k : String) : Prop :=
  ∃ a b c : JSValue, k = generateFontCacheKey a b c ∧ '~' ∉ c.toTemplate.data ∧
    (c.toTemplate = "undefined" ∨ ∃ n : Int, c.toTemplate = toString n)

/-- The key under which `createFontRegistry` stores a file of a family. -/
def ownCacheKey (family : String) (file : FontFileDefinition) : String :=
  generateFontCacheKey (.str family) (JSValue.ofStr? file.style) (JSValue.ofNum? file.weight)

/-- The number that a list of decimal digit characters spells, read onto `acc`. -/
def digitsValue (acc : Nat) (cs : List Char) : Nat :=
  cs.foldl (fun a c => a * 10 + (c.toNat - 48)) acc

/-! ## Sample registries -/

/-- A font file with a name, a weight and a style. -/
def fontFile (name : String) (weight : Int) (style : String) : FontFileDefinition :=
  ⟨some name, none, none, some weight, some style⟩

/-- The candidates of the style-before-weight example. -/
def sampleFiles : List FontFileDefinition :=
  [fontFile "Demo-Thin" 100 "normal", fontFile "Demo-ThinItalic" 99 "italic"]

/-- A registry with one family that holds the candidates of the example. -/
def sampleFonts : Fonts := [("Demo", sampleFiles)]

/-- A registry where one family lists two files of the same style and weight. -/
def twinFonts : Fonts :=
  [("Twin", [fontFile "Twin-First" 400 "normal", fontFile "Twin-Second" 400 "normal"])]

/-- A registry whose only file has a style that reads as a number. -/
def numeralFonts : Fonts := [("Num", [fontFile "Num-Bold" 700 "400"])]

/-- A registry with a family name that contains the key separator. -/
def separatorFonts : Fonts :=
  [("a~~~1", [fontFile "First" 2 "5"]), ("a", [fontFile "Second" 400 "normal"])]

/-- A registry whose family has two files with numbers for styles: the style of
each is the weight of the other. -/
def crossedFonts : Fonts :=
  [("Num", [fontFile "Num-First" 700 "400", fontFile "Num-Second" 400 "700"])]

/-- A registry whose family lists two files of style "400" and weight 400. -/
def numeralTwinFonts : Fonts :=
  [("Num", [fontFile "Num-First" 400 "400", fontFile "Num-Second" 400 "400"])]

/-- A registry whose only file states the weight 0. -/
def zeroFonts : Fonts := [("Zero", [fontFile "Zero-Thin" 0 "normal"])]

/-- A registry whose file has a style that contains the key separator. -/
def styleSeparatorFonts : Fonts := [("a", [fontFile "Odd" 1 "b~~~c"])]

/-- The thin and the light file of the closest-weight example. -/
def weightFiles : List FontFileDefinition :=
  [fontFile "Mont-Thin" 250 "normal", fontFile "Mont-Light" 300 "normal"]

/-- A registry with the family of the closest-weight example. -/
def weightFonts : Fonts := [("Mont", weightFiles)]

/-- Two normal files with the weights `2 ^ 53` and `2 ^ 53 - 1`. -/
def bigFiles : List FontFileDefinition :=
  [fontFile "Big-A" 9007199254740992 "normal", fontFile "Big-B" 9007199254740991 "normal"]

/-- A registry with the family of the two large weights. -/
def bigFonts : Fonts := [("Big", bigFiles)]

/-- A registry whose file states a name, a file name and a PostScript name. -/
def namedFonts : Fonts :=
  [("Named", [⟨some "Named-Regular", some "named_regular", some "Named-PS", some 400,
    some "normal"⟩])]

/-! ## The map operations -/

theorem JSMap.get_set {β : Type} (m : JSMap β) (k k' : String) (v : β) :
    (m.set k v).get k' = if k = k' then some v else m.get k' := by
  induction m with
  | nil => simp [JSMap.set, JSMap.get]
  | cons e rest ih =>
    obtain ⟨k0, v0⟩ := e
    by_cases h0 : k0 = k
    · subst h0
      by_cases h1 : k0 = k' <;> simp [JSMap.set, JSMap.get, h1]
    · by_cases h1 : k0 = k'
      · subst h1
        have h2 : ¬ k = k0 := fun h => h0 h.symm
        simp [JSMap.set, JSMap.get, h0, h2]
      · simp [JSMap.set, JSMap.get, h0, h1, ih]

theorem JSMap.get_foldl_set_of_ne {β : Type} (entries : List (String × β)) (m : JSMap β)
    (k : String) (hne : ∀ e ∈ entries, e.1 ≠ k) :
    (entries.foldl (fun m e => m.set e.1 e.2) m).get k = m.get k := by
  induction entries generalizing m with
  | nil => rfl
  | cons e rest ih =>
    rw [List.foldl_cons, ih _ (fun e' he' => hne e' (List.mem_cons_of_mem _ he')),
      JSMap.get_set, if_neg (hne e (List.mem_cons_self _ _))]

/-- The map built from a list of entries holds, under a key, the value of the
last entry with that key. -/
theorem JSMap.ofEntries_get_last {β : Type} (pre post : List (String × β)) (k : String)
    (v : β) (hne : ∀ e ∈ post, e.1 ≠ k) :
    (JSMap.ofEntries (pre ++ (k, v) :: post)).get k = some v := by
  unfold JSMap.ofEntries
  rw [List.foldl_append, List.foldl_cons, JSMap.get_foldl_set_of_ne post _ k hne,
    JSMap.get_set, if_pos rfl]

/-! ## The cache keys -/

theorem digitChar_value (k : Nat) (hk : k < 10) : (Nat.digitChar k).toNat - 48 = k := by
  interval_cases k <;> rfl

theorem digitChar_ne (k : Nat) (hk : k < 10) :
    Nat.digitChar k ≠ '~' ∧ Nat.digitChar k ≠ '-' := by
  interval_cases k <;> decide

theorem toDigitsCore_value (fuel n : Nat) (ds : List Char) (hfuel : n < fuel) :
    digitsValue 0 (Nat.toDigitsCore 10 fuel n ds) = digitsValue n ds := by
  induction fuel generalizing n ds with
  | zero => omega
  | succ fuel ih =>
    unfold Nat.toDigitsCore
    simp only []
    split_ifs with h0
    · have hn : n % 10 = n := by omega
      simp only [digitsValue, List.foldl_cons, digitChar_value (n % 10) (Nat.mod_lt _ (by omega))]
      rw [hn]; simp
    · have hlt : n / 10 < fuel := by omega
      rw [ih (n / 10) _ hlt]
      simp only [digitsValue, List.foldl_cons, digitChar_value (n % 10) (Nat.mod_lt _ (by omega))]
      have : n / 10 * 10 + n % 10 = n := by omega
      rw [this]

theorem toDigitsCore_chars (fuel n : Nat) (ds : List Char)
    (hds : ∀ c ∈ ds, c ≠ '~' ∧ c ≠ '-') :
    ∀ c ∈ Nat.toDigitsCore 10 fuel n ds, c ≠ '~' ∧ c ≠ '-' := by
  induction fuel generalizing n ds with
  | zero => simpa [Nat.toDigitsCore] using hds
  | succ fuel ih =>
    have hd := digitChar_ne (n % 10) (Nat.mod_lt _ (by omega))
    have hcons : ∀ c ∈ Nat.digitChar (n % 10) :: ds, c ≠ '~' ∧ c ≠ '-' := by
      intro c hc
      rcases List.mem_cons.mp hc with h | h
      · rw [h]; exact hd
      · exact hds c h
    unfold Nat.toDigitsCore
    simp only []
    split_ifs with h0
    · exact hcons
    · exact ih (n / 10) _ hcons

theorem natRepr_value (n : Nat) : digitsValue 0 (Nat.repr n).data = n := by
  show digitsValue 0 (Nat.toDigitsCore 10 (n + 1) n []) = n
  rw [toDigitsCore_value (n + 1) n [] (by omega)]
  rfl

theorem natRepr_chars (n : Nat) : ∀ c ∈ (Nat.repr n).data, c ≠ '~' ∧ c ≠ '-' :=
  toDigitsCore_chars (n + 1) n [] (by simp)

theorem natRepr_injective (m n : Nat) (h : Nat.repr m = Nat.repr n) : m = n := by
  have := natRepr_value m
  rw [h, natRepr_value n] at this
  exact this.symm

theorem intToString_chars (w : Int) : '~' ∉ (toString w).data := by
  cases w with
  | ofNat m =>
    intro hmem
    exact (natRepr_chars m _ hmem).1 rfl
  | negSucc m =>
    show '~' ∉ ("-" ++ Nat.repr (m + 1)).data
    rw [String.data_append]
    intro hmem
    rcases List.mem_append.mp hmem with h | h
    · revert h; decide
    · exact (natRepr_chars (m + 1) _ h).1 rfl

theorem intToString_injective (v w : Int) (h : toString v = toString w) : v = w := by
  cases v with
  | ofNat m =>
    cases w with
    | ofNat n =>
      have : Nat.repr m = Nat.repr n := h
      rw [natRepr_injective m n this]
    | negSucc n =>
      exfalso
      have h2 : Nat.repr m = "-" ++ Nat.repr (n + 1) := h
      have hmem : '-' ∈ (Nat.repr m).data := by rw [h2, String.data_append]; simp
      exact (natRepr_chars m _ hmem).2 rfl
  | negSucc m =>
    cases w with
    | ofNat n =>
      exfalso
      have h2 : "-" ++ Nat.repr (m + 1) = Nat.repr n := h
      have hmem : '-' ∈ (Nat.repr n).data := by rw [← h2, String.data_append]; simp
      exact (natRepr_chars n _ hmem).2 rfl
    | negSucc n =>
      have h2 : "-" ++ Nat.repr (m + 1) = "-" ++ Nat.repr (n + 1) := h
      have h3 : Nat.repr (m + 1) = Nat.repr (n + 1) := by
        apply String.ext
        have := congrArg String.data h2
        rw [String.data_append, String.data_append] at this
        exact List.append_cancel_left this
      have := natRepr_injective _ _ h3
      have hmn : m = n := by omega
      rw [hmn]

theorem append_sep_inj (l1 l2 r1 r2 : List Char) (h1 : '~' ∉ l1) (h2 : '~' ∉ l2)
    (h : l1 ++ '~' :: r1 = l2 ++ '~' :: r2) : l1 = l2 ∧ r1 = r2 := by
  induction l1 generalizing l2 with
  | nil =>
    cases l2 with
    | nil => simpa using h
    | cons c l2 =>
      simp only [List.nil_append, List.cons_append, List.cons.injEq] at h
      exact absurd (by rw [← h.1]; simp) h2
  | cons c l1 ih =>
    cases l2 with
    | nil =>
      simp only [List.nil_append, List.cons_append, List.cons.injEq] at h
      exact absurd (by rw [h.1]; simp) h1
    | cons c2 l2 =>
      simp only [List.cons_append, List.cons.injEq] at h
      have hh := ih l2 (fun hm => h1 (List.mem_cons_of_mem _ hm))
        (fun hm => h2 (List.mem_cons_of_mem _ hm)) h.2
      exact ⟨by rw [h.1, hh.1], hh.2⟩



theorem generateFontCacheKey_data (family style weight : JSValue) :
    (generateFontCacheKey family style weight).data =
      family.toTemplate.data ++ '~' :: '~' :: '~' ::
        (style.toTemplate.data ++ '~' :: '~' :: '~' :: weight.toTemplate.data) := by
  have hsep : FONT_CACHE_KEY_SEPARATOR.data = ['~', '~', '~'] := rfl
  simp [generateFontCacheKey, String.data_append, hsep]

/-- Keys agree only on equal renderings when the families and the weights are
rendered without the character of the separator. -/
theorem generateFontCacheKey_template_inj (a1 b1 c1 a2 b2 c2 : JSValue)
    (ha1 : '~' ∉ a1.toTemplate.data) (ha2 : '~' ∉ a2.toTemplate.data)
    (hc1 : '~' ∉ c1.toTemplate.data) (hc2 : '~' ∉ c2.toTemplate.data)
    (h : generateFontCacheKey a1 b1 c1 = generateFontCacheKey a2 b2 c2) :
    a1.toTemplate = a2.toTemplate ∧ b1.toTemplate = b2.toTemplate ∧
      c1.toTemplate = c2.toTemplate := by
  have hd := congrArg String.data h
  rw [generateFontCacheKey_data, generateFontCacheKey_data] at hd
  obtain ⟨hfam, hrest⟩ := append_sep_inj _ _ _ _ ha1 ha2 hd
  simp only [List.cons.injEq, true_and] at hrest
  have hrev : c1.toTemplate.data.reverse ++ '~' :: ('~' :: '~' :: b1.toTemplate.data.reverse)
      = c2.toTemplate.data.reverse ++ '~' :: ('~' :: '~' :: b2.toTemplate.data.reverse) := by
    simpa using congrArg List.reverse hrest
  obtain ⟨hw, hrest2⟩ := append_sep_inj _ _ _ _
    (by simpa using hc1) (by simpa using hc2) hrev
  simp only [List.cons.injEq, true_and] at hrest2
  exact ⟨String.ext hfam, String.ext (List.reverse_injective hrest2),
    String.ext (List.reverse_injective hw)⟩

/-- Every character of the decimal rendering of a natural number is a digit. -/
theorem toDigitsCore_forall (P : Char → Prop) (hP : ∀ k, k < 10 → P (Nat.digitChar k))
    (fuel n : Nat) (ds : List Char) (hds : ∀ c ∈ ds, P c) :
    ∀ c ∈ Nat.toDigitsCore 10 fuel n ds, P c := by
  induction fuel generalizing n ds with
  | zero => simpa [Nat.toDigitsCore] using hds
  | succ fuel ih =>
    have hcons : ∀ c ∈ Nat.digitChar (n % 10) :: ds, P c := by
      intro c hc
      rcases List.mem_cons.mp hc with h | h
      · rw [h]; exact hP _ (Nat.mod_lt _ (by omega))
      · exact hds c h
    unfold Nat.toDigitsCore
    simp only []
    split_ifs with h0
    · exact hcons
    · exact ih (n / 10) _ hcons

/-- Every character of the rendering of an integer is a digit or the sign. -/
theorem intToString_forall (P : Char → Prop) (hP : ∀ k, k < 10 → P (Nat.digitChar k))
    (hminus : P '-') (w : Int) : ∀ c ∈ (toString w).data, P c := by
  cases w with
  | ofNat m => exact toDigitsCore_forall P hP (m + 1) m [] (by simp)
  | negSucc m =>
    show ∀ c ∈ ("-" ++ Nat.repr (m + 1)).data, P c
    rw [String.data_append]
    intro c hc
    rcases List.mem_append.mp hc with h | h
    · have hc2 : c = '-' := by simpa using h
      rw [hc2]; exact hminus
    · exact toDigitsCore_forall P hP (m + 1 + 1) (m + 1) [] (by simp) c h

theorem intToString_ne_undefined (w : Int) : toString w ≠ "undefined" := by
  intro h
  have hall := intToString_forall (fun c => c ≠ 'u')
    (by intro k hk; interval_cases k <;> decide) (by decide) w
  exact hall 'u' (by rw [h]; decide) rfl

theorem intToString_ne_normal (w : Int) : toString w ≠ "normal" := by
  intro h
  have hall := intToString_forall (fun c => c ≠ 'n')
    (by intro k hk; interval_cases k <;> decide) (by decide) w
  exact hall 'n' (by rw [h]; decide) rfl

/-- The rendering of a weight read from a file has no `~`. -/
theorem ofNum_template_chars (weight : Option Int) :
    '~' ∉ (JSValue.ofNum? weight).toTemplate.data := by
  cases weight with
  | none => decide
  | some w => exact intToString_chars w

/-- Two keys that agree have the same text after the last separator, when
that text has no `~`. -/
theorem generateFontCacheKey_last_inj (a1 b1 c1 a2 b2 c2 : JSValue)
    (hc1 : '~' ∉ c1.toTemplate.data) (hc2 : '~' ∉ c2.toTemplate.data)
    (h : generateFontCacheKey a1 b1 c1 = generateFontCacheKey a2 b2 c2) :
    c1.toTemplate = c2.toTemplate := by
  have hd := congrArg String.data h
  rw [generateFontCacheKey_data, generateFontCacheKey_data] at hd
  have hrev : c1.toTemplate.data.reverse ++ '~' ::
        ('~' :: '~' :: (b1.toTemplate.data.reverse ++ '~' :: '~' :: '~' ::
          a1.toTemplate.data.reverse))
      = c2.toTemplate.data.reverse ++ '~' ::
        ('~' :: '~' :: (b2.toTemplate.data.reverse ++ '~' :: '~' :: '~' ::
          a2.toTemplate.data.reverse)) := by
    simpa using congrArg List.reverse hd
  obtain ⟨hw, _⟩ := append_sep_inj _ _ _ _ (by simpa using hc1) (by simpa using hc2) hrev
  exact String.ext (List.reverse_injective hw)

/-! ## The eager population -/

theorem cacheEntries_foldl (fonts : Fonts) (acc : List (String × FontFileDefinition)) :
    fonts.foldl
      (fun cacheEntries entry =>
        cacheEntries ++ entry.2.map (fun file =>
          (generateFontCacheKey (.str entry.1) (JSValue.ofStr? file.style)
            (JSValue.ofNum? file.weight), file)))
      acc
    = acc ++ fonts.flatMap (fun entry => entry.2.map (fun file => (ownCacheKey entry.1 file, file))) := by
  induction fonts generalizing acc with
  | nil => simp
  | cons entry rest ih =>
    rw [List.foldl_cons, ih, List.flatMap_cons, List.append_assoc]
    rfl

/-- The entries of the eager population, family by family and file by file. -/
theorem cacheEntries_eq (fonts : Fonts) :
    cacheEntries fonts
      = fonts.flatMap (fun entry => entry.2.map (fun file => (ownCacheKey entry.1 file, file))) := by
  unfold cacheEntries
  rw [cacheEntries_foldl]
  rfl

theorem JSMap.mem_of_foldl_set_get {β : Type} (entries : List (String × β)) (m : JSMap β)
    (k : String) (v : β)
    (h : (entries.foldl (fun m e => m.set e.1 e.2) m).get k = some v) :
    (k, v) ∈ entries ∨ m.get k = some v := by
  induction entries generalizing m with
  | nil => exact Or.inr h
  | cons e rest ih =>
    rw [List.foldl_cons] at h
    rcases ih _ h with h1 | h1
    · exact Or.inl (List.mem_cons_of_mem _ h1)
    · rw [JSMap.get_set] at h1
      split_ifs at h1 with hk
      · left
        simp only [Option.some.injEq] at h1
        have he : e = (k, v) := by rw [← hk, ← h1]
        rw [he]; exact List.mem_cons_self _ _
      · exact Or.inr h1

theorem JSMap.get_isSome_of_mem {β : Type} (m : JSMap β) (k : String) (v : β)
    (h : (k, v) ∈ m) : (m.get k).isSome = true := by
  induction m with
  | nil => simp at h
  | cons e rest ih =>
    obtain ⟨k0, v0⟩ := e
    by_cases h0 : k0 = k
    · simp [JSMap.get, h0]
    · rcases List.mem_cons.mp h with h1 | h1
      · exact absurd (congrArg Prod.fst h1).symm h0
      · simp [JSMap.get, h0, ih h1]

/-- Every entry of the cache that `createFontRegistry` builds holds a file of
the registry under the key of the family and of the file. -/
theorem createFontRegistry_get (fonts : Fonts) (k : String) (d : FontFileDefinition)
    (h : (createFontRegistry fonts).get k = some d) :
    ∃ e ∈ fonts, d ∈ e.2 ∧ ownCacheKey e.1 d = k := by
  unfold createFontRegistry JSMap.ofEntries at h
  rcases JSMap.mem_of_foldl_set_get _ _ k d h with h1 | h1
  · rw [cacheEntries_eq] at h1
    obtain ⟨e, he, h2⟩ := List.mem_flatMap.mp h1
    obtain ⟨d', hd', h3⟩ := List.mem_map.mp h2
    simp only [Prod.mk.injEq] at h3
    refine ⟨e, he, ?_, ?_⟩
    · rw [← h3.2]; exact hd'
    · rw [← h3.2]; exact h3.1
  · simp [JSMap.get] at h1

/-- Right after `createFontRegistry` the cache has no entry under the key of a
family, a weight and the style `normal` in the place of the weight. -/
theorem createFontRegistry_get_normal_last (fonts : Fonts) (family : String) (weight : Int) :
    (createFontRegistry fonts).get
      (generateFontCacheKey (.str family) (.num weight) (.str "normal")) = none := by
  cases hget : (createFontRegistry fonts).get
      (generateFontCacheKey (.str family) (.num weight) (.str "normal")) with
  | none => rfl
  | some d =>
    exfalso
    obtain ⟨e, _, _, hkey⟩ := createFontRegistry_get fonts _ d hget
    have hlast := generateFontCacheKey_last_inj _ _ _ _ _ _
      (ofNum_template_chars d.weight) (by decide) hkey
    cases hw : d.weight with
    | none =>
      rw [hw] at hlast
      exact absurd hlast (by decide)
    | some w =>
      rw [hw] at hlast
      exact intToString_ne_normal w hlast

/-! ## The ranking -/

theorem sortedFontFiles_length (style : String) (weight : Int)
    (files : List FontFileDefinition) :
    (sortedFontFiles style weight files).length = files.length := by
  simp [sortedFontFiles, List.length_insertionSort]

theorem bestMatch_isSome (style : String) (weight : Int)
    (files : List FontFileDefinition) (hne : files ≠ []) :
    ∃ d, bestMatch style weight files = some d := by
  have hlen := sortedFontFiles_length style weight files
  unfold bestMatch
  cases hs : sortedFontFiles style weight files with
  | nil =>
    rw [hs] at hlen
    exact absurd (List.length_eq_zero.mp hlen.symm) hne
  | cons first rest => exact ⟨first.file, rfl⟩

/-- The comparator is negative exactly when the triple (style distance, weight
distance, index) of `a` is lexicographically at most that of `b`. -/
theorem compareFontFiles_neg_iff (style : String) (weight : Int) (a b : IndexedFontFile) :
    compareFontFiles style weight a b < 0 ↔
      (styleDistance style a.file < styleDistance style b.file ∨
        (styleDistance style a.file = styleDistance style b.file ∧
          (weightDistance weight a.file < weightDistance weight b.file ∨
            (weightDistance weight a.file = weightDistance weight b.file ∧
              a.index ≤ b.index)))) := by
  unfold compareFontFiles
  simp only []
  split_ifs <;> omega

theorem compareFontFiles_total (style : String) (weight : Int) (a b : IndexedFontFile) :
    compareFontFiles style weight a b < 0 ∨ compareFontFiles style weight b a < 0 := by
  rw [compareFontFiles_neg_iff, compareFontFiles_neg_iff]
  omega

theorem compareFontFiles_trans (style : String) (weight : Int) (a b c : IndexedFontFile)
    (hab : compareFontFiles style weight a b < 0) (hbc : compareFontFiles style weight b c < 0) :
    compareFontFiles style weight a c < 0 := by
  rw [compareFontFiles_neg_iff] at *
  omega

/-- The sorted array is a permutation of the indexed files. -/
theorem sortedFontFiles_mem (style : String) (weight : Int)
    (files : List FontFileDefinition) (e : IndexedFontFile) :
    e ∈ sortedFontFiles style weight files ↔
      ∃ (i : Nat) (h : i < files.length), e = ⟨files.get ⟨i, h⟩, i⟩ := by
  unfold sortedFontFiles
  rw [(List.perm_insertionSort _ _).mem_iff, List.mem_mapIdx]
  constructor
  · rintro ⟨i, h, rfl⟩; exact ⟨i, h, rfl⟩
  · rintro ⟨i, h, rfl⟩; exact ⟨i, h, rfl⟩

/-- The first element of the sorted array is ranked before every element. -/
theorem sortedFontFiles_head_le (style : String) (weight : Int)
    (files : List FontFileDefinition) (first : IndexedFontFile) (rest : List IndexedFontFile)
    (hs : sortedFontFiles style weight files = first :: rest) (e : IndexedFontFile)
    (he : e ∈ sortedFontFiles style weight files) :
    compareFontFiles style weight first e < 0 := by
  haveI : IsTotal IndexedFontFile (fun a b => compareFontFiles style weight a b < 0) :=
    ⟨compareFontFiles_total style weight⟩
  haveI : IsTrans IndexedFontFile (fun a b => compareFontFiles style weight a b < 0) :=
    ⟨compareFontFiles_trans style weight⟩
  have hsorted : (sortedFontFiles style weight files).Sorted
      (fun a b => compareFontFiles style weight a b < 0) := by
    unfold sortedFontFiles
    exact List.sorted_insertionSort _ _
  rw [hs] at hsorted he
  rcases List.mem_cons.mp he with h | h
  · subst h
    rcases compareFontFiles_total style weight e e with h | h <;> exact h
  · exact List.rel_of_sorted_cons hsorted e h

/-- The best-ranked file sits at an index whose triple is strictly below the
triple of every other index. -/
theorem bestMatch_spec (style : String) (weight : Int) (files : List FontFileDefinition)
    (hne : files ≠ []) :
    ∃ (i : Nat) (h : i < files.length),
      bestMatch style weight files = some (files.get ⟨i, h⟩) ∧
      ∀ (j : Nat) (hj : j < files.length), j ≠ i →
        (styleDistance style (files.get ⟨i, h⟩) < styleDistance style (files.get ⟨j, hj⟩) ∨
          (styleDistance style (files.get ⟨i, h⟩) = styleDistance style (files.get ⟨j, hj⟩) ∧
            (weightDistance weight (files.get ⟨i, h⟩) < weightDistance weight (files.get ⟨j, hj⟩) ∨
              (weightDistance weight (files.get ⟨i, h⟩) = weightDistance weight (files.get ⟨j, hj⟩)
                ∧ i < j)))) := by
  have hlen := sortedFontFiles_length style weight files
  cases hs : sortedFontFiles style weight files with
  | nil =>
    rw [hs] at hlen
    exact absurd (List.length_eq_zero.mp hlen.symm) hne
  | cons first rest =>
    have hmem : first ∈ sortedFontFiles style weight files := by rw [hs]; simp
    obtain ⟨i, h, hi⟩ := (sortedFontFiles_mem style weight files first).mp hmem
    refine ⟨i, h, ?_, ?_⟩
    · unfold bestMatch
      rw [hs, hi]
      rfl
    · intro j hj hji
      have hej : (⟨files.get ⟨j, hj⟩, j⟩ : IndexedFontFile) ∈ sortedFontFiles style weight files :=
        (sortedFontFiles_mem style weight files _).mpr ⟨j, hj, rfl⟩
      have hle := sortedFontFiles_head_le style weight files first rest hs _ hej
      rw [compareFontFiles_neg_iff, hi] at hle
      simp only [] at hle
      omega

/-- What `lookup` does for a family that passes the guard. -/
theorem lookup_valid (fonts : Fonts) (cache : FontCache) (family : String)
    (files : List FontFileDefinition) (options : LookupOptions) (d : FontFileDefinition)
    (hfam : family ≠ "") (hget : fonts.get family = some files) (hne : files ≠ [])
    (hbest : bestMatch (options.style.getD "normal") (options.weight.getD 400) files = some d) :
    lookup fonts cache (some family) options =
      if options.ignoreCache.getD false then (some d, cache)
      else
        match cache.get (generateFontCacheKey (.str family)
            (.num (options.weight.getD 400)) (.str (options.style.getD "normal"))) with
        | some cachedFont => (some cachedFont, cache)
        | none =>
          (some d, cache.set (generateFontCacheKey (.str family)
            (.str (options.style.getD "normal")) (.num (options.weight.getD 400))) d) := by
  have hlen : ¬ files.length = 0 := fun h => hne (List.length_eq_zero.mp h)
  unfold bestMatch at hbest
  cases hs : sortedFontFiles (options.style.getD "normal") (options.weight.getD 400) files with
  | nil => rw [hs] at hbest; simp at hbest
  | cons first rest =>
    rw [hs] at hbest
    simp only [List.head?_cons, Option.map_some', Option.some.injEq] at hbest
    unfold lookup
    simp only [hfam, hget, hlen, if_false, hs, hbest]
    cases hic : options.ignoreCache.getD false with
    | true => simp
    | false =>
      simp only [Bool.false_eq_true, if_false]

/-- What `lookup` does for a family that fails the guard. -/
theorem lookup_invalid (fonts : Fonts) (cache : FontCache) (family : Option String)
    (options : LookupOptions)
    (h : family = none ∨ family = some "" ∨
      ∃ f, family = some f ∧ (fonts.get f = none ∨ fonts.get f = some [])) :
    lookup fonts cache family options = (none, cache) := by
  unfold lookup
  rcases h with h | h | ⟨f, hf, h | h⟩
  · subst h; rfl
  · subst h; simp
  · subst hf; by_cases hfe : f = "" <;> simp [hfe, h]
  · subst hf; by_cases hfe : f = "" <;> simp [hfe, h]

/-- A family that passes the guard always gets a font file. -/
theorem lookup_valid_isSome (fonts : Fonts) (cache : FontCache) (family : String)
    (files : List FontFileDefinition) (options : LookupOptions)
    (hfam : family ≠ "") (hget : fonts.get family = some files) (hne : files ≠ []) :
    ∃ d, (lookup fonts cache (some family) options).1 = some d := by
  obtain ⟨d, hd⟩ := bestMatch_isSome (options.style.getD "normal")
    (options.weight.getD 400) files hne
  rw [lookup_valid fonts cache family files options d hfam hget hne hd]
  split_ifs
  · exact ⟨d, rfl⟩
  · split
    · rename_i cachedFont _
      exact ⟨cachedFont, rfl⟩
    · exact ⟨d, rfl⟩

/-! ## The cache after a call -/

/-- A call of `lookup` leaves the cache as it is or sets one key. -/
theorem lookup_cache_eq_or_set (fonts : Fonts) (cache : FontCache) (family : Option String)
    (options : LookupOptions) :
    (lookup fonts cache family options).2 = cache ∨
      ∃ k v, (lookup fonts cache family options).2 = cache.set k v := by
  by_cases h : family = none ∨ family = some "" ∨
      ∃ f, family = some f ∧ (fonts.get f = none ∨ fonts.get f = some [])
  · rw [lookup_invalid fonts cache family options h]
    exact Or.inl rfl
  · cases family with
    | none => exact absurd (Or.inl rfl) h
    | some f =>
      have hfe : f ≠ "" := fun he => h (Or.inr (Or.inl (by rw [he])))
      cases hget : fonts.get f with
      | none => exact absurd (Or.inr (Or.inr ⟨f, rfl, Or.inl hget⟩)) h
      | some files =>
        have hne : files ≠ [] := fun he =>
          h (Or.inr (Or.inr ⟨f, rfl, Or.inr (by rw [hget, he])⟩))
        obtain ⟨d, hd⟩ := bestMatch_isSome (options.style.getD "normal")
          (options.weight.getD 400) files hne
        rw [lookup_valid fonts cache f files options d hfe hget hne hd]
        split_ifs
        · exact Or.inl rfl
        · split
          · exact Or.inl rfl
          · exact Or.inr ⟨_, _, rfl⟩

/-- A key that is in the cache before a call of `lookup` is in it afterwards. -/
theorem lookup_keeps_keys (fonts : Fonts) (cache : FontCache) (family : Option String)
    (options : LookupOptions) (k : String) (hk : (cache.get k).isSome = true) :
    ((lookup fonts cache family options).2.get k).isSome = true := by
  rcases lookup_cache_eq_or_set fonts cache family options with h | ⟨k', v, h⟩
  · rw [h]; exact hk
  · rw [h, JSMap.get_set]
    split_ifs
    · rfl
    · exact hk

/-- The cache that `createFontStyles` leaves is the cache that its `lookup`
call leaves. -/
theorem createFontStyles_cache (platform : Platform) (fonts : Fonts) (cache : FontCache)
    (family : Option String) (options : FontStyleOptions) (ignoreCache : Option Bool) :
    (createFontStyles platform fonts cache family options ignoreCache).2
      = (lookup fonts cache family ⟨options.style, options.weight, ignoreCache⟩).2 := by
  unfold createFontStyles
  simp only []
  split <;> rfl

/-- The style object of `createFontStyles` when its `lookup` call returns null. -/
theorem createFontStyles_of_none (platform : Platform) (fonts : Fonts) (cache : FontCache)
    (family : Option String) (options : FontStyleOptions) (ignoreCache : Option Bool)
    (hnone : (lookup fonts cache family ⟨options.style, options.weight, ignoreCache⟩).1 = none) :
    (createFontStyles platform fonts cache family options ignoreCache).1
      = spreadInto [] options.rest := by
  have hnone2 : (lookup fonts cache family ⟨some (options.style.getD "normal"),
      some (options.weight.getD 400), some (ignoreCache.getD false)⟩).1 = none := hnone
  unfold createFontStyles
  simp only [hnone2]

/-- The style object of `createFontStyles` when its `lookup` call returns a file. -/
theorem createFontStyles_of_some (platform : Platform) (fonts : Fonts) (cache : FontCache)
    (family : Option String) (options : FontStyleOptions) (ignoreCache : Option Bool)
    (d : FontFileDefinition)
    (hsome : (lookup fonts cache family ⟨options.style, options.weight, ignoreCache⟩).1 = some d) :
    (createFontStyles platform fonts cache family options ignoreCache).1
      = platform.select
          (spreadInto [("fontFamily", JSValue.ofStr? (strOr d.fileName d.name))] options.rest)
          (spreadInto
            [("fontFamily", JSValue.ofStr? (strOr d.postScriptName d.name)),
             ("fontWeight", JSValue.str (fontWeightText d)),
             ("fontStyle", JSValue.str (fontStyleText d))]
            options.rest) := by
  have hsome2 : (lookup fonts cache family ⟨some (options.style.getD "normal"),
      some (options.weight.getD 400), some (ignoreCache.getD false)⟩).1 = some d := hsome
  unfold createFontStyles
  simp only [hsome2]

/-! ## The style objects -/

theorem JSMap.get_eq_none_of_not_mem {β : Type} (m : JSMap β) (k : String)
    (hk : k ∉ m.map Prod.fst) : m.get k = none := by
  induction m with
  | nil => rfl
  | cons e rest ih =>
    obtain ⟨k0, v0⟩ := e
    simp only [List.map_cons, List.mem_cons, not_or] at hk
    have h0 : ¬ k0 = k := fun h => hk.1 h.symm
    simp [JSMap.get, h0, ih hk.2]

theorem JSMap.mem_keys_of_get {β : Type} (m : JSMap β) (k : String) (v : β)
    (hk : m.get k = some v) : (k, v) ∈ m := by
  induction m with
  | nil => simp [JSMap.get] at hk
  | cons e rest ih =>
    obtain ⟨k0, v0⟩ := e
    by_cases h0 : k0 = k
    · simp only [JSMap.get, h0, if_true, Option.some.injEq] at hk
      rw [h0, hk]; exact List.mem_cons_self _ _
    · simp only [JSMap.get, h0, if_false] at hk
      exact List.mem_cons_of_mem _ (ih hk)

theorem JSMap.set_of_not_mem {β : Type} (m : JSMap β) (k : String) (v : β)
    (hk : k ∉ m.map Prod.fst) : m.set k v = m ++ [(k, v)] := by
  induction m with
  | nil => rfl
  | cons e rest ih =>
    obtain ⟨k0, v0⟩ := e
    simp only [List.map_cons, List.mem_cons, not_or] at hk
    have h0 : ¬ k0 = k := fun h => hk.1 h.symm
    simp [JSMap.set, h0, ih hk.2]

/-- Spreading an object with other property names appends its properties. -/
theorem spreadInto_of_disjoint (base rest : JSObject)
    (hnodup : (rest.map Prod.fst).Nodup)
    (hdisj : ∀ k ∈ rest.map Prod.fst, k ∉ base.map Prod.fst) :
    spreadInto base rest = base ++ rest := by
  induction rest generalizing base with
  | nil => simp [spreadInto]
  | cons e rest ih =>
    obtain ⟨k0, v0⟩ := e
    simp only [List.map_cons, List.nodup_cons] at hnodup
    have hk0 : k0 ∉ base.map Prod.fst := hdisj k0 (by simp)
    have hstep : spreadInto base ((k0, v0) :: rest) = spreadInto (base.set k0 v0) rest := rfl
    rw [hstep, JSMap.set_of_not_mem base k0 v0 hk0, ih (base ++ [(k0, v0)]) hnodup.2]
    · simp
    · intro k hk
      simp only [List.map_append, List.map_cons, List.map_nil, List.mem_append,
        List.mem_singleton, not_or]
      refine ⟨hdisj k (by simp [List.mem_map] at hk ⊢; exact Or.inr hk), ?_⟩
      intro hkk
      rw [hkk] at hk
      exact hnodup.1 hk

/-- A property read from a spread: the value in the spread object if it has the
name, else the value written before. -/
theorem spreadInto_get (base rest : JSObject) (k : String)
    (hnodup : (rest.map Prod.fst).Nodup) :
    (spreadInto base rest).get k
      = match rest.get k with
        | some v => some v
        | none => base.get k := by
  induction rest generalizing base with
  | nil => rfl
  | cons e rest ih =>
    obtain ⟨k0, v0⟩ := e
    simp only [List.map_cons, List.nodup_cons] at hnodup
    have hstep : spreadInto base ((k0, v0) :: rest) = spreadInto (base.set k0 v0) rest := rfl
    rw [hstep, ih (base.set k0 v0) hnodup.2, JSMap.get_set]
    by_cases h0 : k0 = k
    · subst h0
      simp [JSMap.get, JSMap.get_eq_none_of_not_mem rest k0 hnodup.1]
    · simp [JSMap.get, h0]

/-! ## The weight distance -/

theorem droppedBits_of_lt (fuel n : Nat) (h : n < 2 ^ 53) : droppedBits fuel n = 0 := by
  cases fuel with
  | zero => rfl
  | succ fuel =>
    unfold droppedBits
    exact if_pos h

/-- A natural number below `2 ^ 53` is a JavaScript number. -/
theorem roundToDouble_of_lt (n : Nat) (h : n < 2 ^ 53) : roundToDouble n = n := by
  unfold roundToDouble
  simp only [droppedBits_of_lt n n h, pow_zero, Nat.div_one, Nat.mod_one, Nat.mul_zero,
    Nat.mul_one]
  have hcond : ¬ ((0 : Nat) > 1 ∨ ((0 : Nat) = 1 ∧ n % 2 = 1)) := by omega
  have hinf : ¬ ((0 : Nat) ≥ 972 ∨ ((0 : Nat) = 971 ∧ n = 2 ^ 53)) := by omega
  rw [if_neg hcond, if_neg hinf]

/-- The weight distance is the exact absolute difference when that is below
`2 ^ 53`. -/
theorem weightDistance_exact (weight : Int) (file : FontFileDefinition)
    (h : (file.weight.getD 400 - weight).natAbs < 2 ^ 53) :
    weightDistance weight file = (file.weight.getD 400 - weight).natAbs := by
  unfold weightDistance
  exact roundToDouble_of_lt _ h

/-- The style distance, written out. -/
theorem styleDistance_eq (style : String) (file : FontFileDefinition) :
    styleDistance style file
      = if file.style.getD "normal" = style then 0
        else if file.style.getD "normal" = "normal" then 1 else 2 := rfl

/-! ## The order of the comparator -/

/-- The comparator answers 1 or -1. -/
theorem compareFontFiles_values (style : String) (weight : Int) (a b : IndexedFontFile) :
    compareFontFiles style weight a b = 1 ∨ compareFontFiles style weight a b = -1 := by
  unfold compareFontFiles
  simp only []
  split_ifs <;> simp

/-- An indexed file of `fontFilesWithIndex` is the file at its index. -/
theorem mem_fontFilesWithIndex (files : List FontFileDefinition) (e : IndexedFontFile) :
    e ∈ files.mapIdx (fun index file => IndexedFontFile.mk file index) ↔
      ∃ (i : Nat) (h : i < files.length), e = ⟨files.get ⟨i, h⟩, i⟩ := by
  rw [List.mem_mapIdx]
  constructor
  · rintro ⟨i, h, rfl⟩; exact ⟨i, h, rfl⟩
  · rintro ⟨i, h, rfl⟩; exact ⟨i, h, rfl⟩

/-- Two indexed files of `fontFilesWithIndex` with the same index are the same. -/
theorem fontFilesWithIndex_index_inj (files : List FontFileDefinition) (a b : IndexedFontFile)
    (ha : a ∈ files.mapIdx (fun index file => IndexedFontFile.mk file index))
    (hb : b ∈ files.mapIdx (fun index file => IndexedFontFile.mk file index))
    (hab : a.index = b.index) : a = b := by
  obtain ⟨i, hi, rfl⟩ := (mem_fontFilesWithIndex files a).mp ha
  obtain ⟨j, hj, rfl⟩ := (mem_fontFilesWithIndex files b).mp hb
  simp only [] at hab
  subst hab
  rfl

/-- Every arrangement of `fontFilesWithIndex` in which each element compares
negative with the elements after it is the array that `lookup` sorts. -/
theorem sortedFontFiles_unique (style : String) (weight : Int)
    (files : List FontFileDefinition) (l : List IndexedFontFile)
    (hperm : l.Perm (files.mapIdx (fun index file => IndexedFontFile.mk file index)))
    (hsorted : l.Sorted (fun a b => compareFontFiles style weight a b < 0)) :
    l = sortedFontFiles style weight files := by
  haveI : IsTotal IndexedFontFile (fun a b => compareFontFiles style weight a b < 0) :=
    ⟨compareFontFiles_total style weight⟩
  haveI : IsTrans IndexedFontFile (fun a b => compareFontFiles style weight a b < 0) :=
    ⟨compareFontFiles_trans style weight⟩
  haveI : IsAntisymm IndexedFontFile
      (fun a b => compareFontFiles style weight a b < 0 ∧ (a.index = b.index → a = b)) :=
    ⟨by
      intro a b hab hba
      have h1 := (compareFontFiles_neg_iff style weight a b).mp hab.1
      have h2 := (compareFontFiles_neg_iff style weight b a).mp hba.1
      exact hab.2 (by omega)⟩
  have hsorted2 : (sortedFontFiles style weight files).Sorted
      (fun a b => compareFontFiles style weight a b < 0) := by
    unfold sortedFontFiles
    exact List.sorted_insertionSort _ _
  have hperm2 : (sortedFontFiles style weight files).Perm
      (files.mapIdx (fun index file => IndexedFontFile.mk file index)) := by
    unfold sortedFontFiles
    exact List.perm_insertionSort _ _
  have hs1 : l.Sorted
      (fun a b => compareFontFiles style weight a b < 0 ∧ (a.index = b.index → a = b)) :=
    List.Pairwise.imp_of_mem
      (fun ha hb hr => ⟨hr, fontFilesWithIndex_index_inj files _ _
        (hperm.mem_iff.mp ha) (hperm.mem_iff.mp hb)⟩) hsorted
  have hs2 : (sortedFontFiles style weight files).Sorted
      (fun a b => compareFontFiles style weight a b < 0 ∧ (a.index = b.index → a = b)) :=
    List.Pairwise.imp_of_mem
      (fun ha hb hr => ⟨hr, fontFilesWithIndex_index_inj files _ _
        (hperm2.mem_iff.mp ha) (hperm2.mem_iff.mp hb)⟩) hsorted2
  exact List.eq_of_perm_of_sorted (hperm.trans hperm2.symm) hs1 hs2

/-! ## The files in the cache -/

theorem JSMap.mem_set {β : Type} (m : JSMap β) (k : String) (v : β) (e : String × β)
    (he : e ∈ m.set k v) : e ∈ m ∨ e = (k, v) := by
  induction m with
  | nil =>
    right
    simpa [JSMap.set] using he
  | cons e0 rest ih =>
    obtain ⟨k0, v0⟩ := e0
    by_cases h0 : k0 = k
    · simp only [JSMap.set, h0, if_true, List.mem_cons] at he
      rcases he with h | h
      · exact Or.inr h
      · exact Or.inl (List.mem_cons_of_mem _ h)
    · simp only [JSMap.set, h0, if_false, List.mem_cons] at he
      rcases he with h | h
      · left; rw [h]; exact List.mem_cons_self _ _
      · rcases ih h with h1 | h1
        · exact Or.inl (List.mem_cons_of_mem _ h1)
        · exact Or.inr h1

theorem JSMap.mem_foldl_set {β : Type} (entries : List (String × β)) (m : JSMap β)
    (e : String × β) (he : e ∈ entries.foldl (fun m e => m.set e.1 e.2) m) :
    e ∈ m ∨ e ∈ entries := by
  induction entries generalizing m with
  | nil => exact Or.inl he
  | cons e0 rest ih =>
    rw [List.foldl_cons] at he
    rcases ih _ he with h | h
    · rcases JSMap.mem_set m e0.1 e0.2 e h with h1 | h1
      · exact Or.inl h1
      · right
        rw [h1]
        exact List.mem_cons_self _ _
    · exact Or.inr (List.mem_cons_of_mem _ h)

/-- Every value of the cache that `createFontRegistry` builds is a file of the
registry. -/
theorem createFontRegistry_registered (fonts : Fonts) (e : String × FontFileDefinition)
    (he : e ∈ createFontRegistry fonts) : Registered fonts e.2 := by
  unfold createFontRegistry JSMap.ofEntries at he
  rcases JSMap.mem_foldl_set _ _ e he with h | h
  · simp at h
  · rw [cacheEntries_eq] at h
    obtain ⟨entry, hentry, h2⟩ := List.mem_flatMap.mp h
    obtain ⟨d, hd, rfl⟩ := List.mem_map.mp h2
    exact ⟨entry, hentry, hd⟩

/-- The best-ranked file of a list is in the list. -/
theorem bestMatch_mem (style : String) (weight : Int) (files : List FontFileDefinition)
    (d : FontFileDefinition) (hd : bestMatch style weight files = some d) : d ∈ files := by
  have hne : files ≠ [] := by
    intro he
    rw [he] at hd
    simp [bestMatch, sortedFontFiles] at hd
  obtain ⟨i, h, hbest, _⟩ := bestMatch_spec style weight files hne
  rw [hbest] at hd
  simp only [Option.some.injEq] at hd
  rw [← hd]
  exact List.get_mem files i h

/-- A call of `lookup` on a cache of registry files returns a registry file,
if any, and leaves a cache of registry files. -/
theorem lookup_registered (fonts : Fonts) (cache : FontCache) (family : Option String)
    (options : LookupOptions) (hcache : ∀ e ∈ cache, Registered fonts e.2) :
    (∀ d, (lookup fonts cache family options).1 = some d → Registered fonts d) ∧
    (∀ e ∈ (lookup fonts cache family options).2, Registered fonts e.2) := by
  by_cases h : family = none ∨ family = some "" ∨
      ∃ f, family = some f ∧ (fonts.get f = none ∨ fonts.get f = some [])
  · rw [lookup_invalid fonts cache family options h]
    exact ⟨fun d hd => absurd hd (by simp), hcache⟩
  · cases family with
    | none => exact absurd (Or.inl rfl) h
    | some f =>
      have hfe : f ≠ "" := fun he => h (Or.inr (Or.inl (by rw [he])))
      cases hget : fonts.get f with
      | none => exact absurd (Or.inr (Or.inr ⟨f, rfl, Or.inl hget⟩)) h
      | some files =>
        have hne : files ≠ [] := fun he =>
          h (Or.inr (Or.inr ⟨f, rfl, Or.inr (by rw [hget, he])⟩))
        obtain ⟨d, hd⟩ := bestMatch_isSome (options.style.getD "normal")
          (options.weight.getD 400) files hne
        have hreg : Registered fonts d :=
          ⟨(f, files), JSMap.mem_keys_of_get fonts f files hget, bestMatch_mem _ _ files d hd⟩
        rw [lookup_valid fonts cache f files options d hfe hget hne hd]
        split_ifs
        · refine ⟨fun d' hd' => ?_, hcache⟩
          simp only [Option.some.injEq] at hd'
          rw [← hd']; exact hreg
        · split
          · rename_i cachedFont hc
            refine ⟨fun d' hd' => ?_, hcache⟩
            simp only [Option.some.injEq] at hd'
            rw [← hd']
            exact hcache _ (JSMap.mem_keys_of_get cache _ cachedFont hc)
          · refine ⟨fun d' hd' => ?_, fun e he => ?_⟩
            · simp only [Option.some.injEq] at hd'
              rw [← hd']; exact hreg
            · rcases JSMap.mem_set cache _ d e he with h1 | h1
              · exact hcache e h1
              · rw [h1]; exact hreg

/-- Every call leaves a cache of registry files when it starts from one. -/
theorem runCalls_registered (fonts : Fonts) (calls : List Call) (cache : FontCache)
    (hcache : ∀ e ∈ cache, Registered fonts e.2) :
    ∀ e ∈ runCalls fonts cache calls, Registered fonts e.2 := by
  induction calls generalizing cache with
  | nil => exact hcache
  | cons call calls ih =>
    apply ih
    cases call with
    | findInCacheCall family style weight => exact hcache
    | lookupCall family options =>
      exact (lookup_registered fonts cache family options hcache).2
    | createFontStylesCall platform family options ignoreCache =>
      show ∀ e ∈ (createFontStyles platform fonts cache family options ignoreCache).2,
        Registered fonts e.2
      rw [createFontStyles_cache]
      exact (lookup_registered fonts cache family _ hcache).2

/-! ## The keys in the cache -/

/-- A text with a character that is neither a digit nor the sign is not the
rendering of an integer. -/
theorem intToString_ne_of_char (s : String) (c : Char) (hc : c ∈ s.data)
    (hdigit : ∀ k, k < 10 → Nat.digitChar k ≠ c) (hminus : c ≠ '-') :
    ∀ n : Int, s ≠ toString n := by
  intro n h
  have hall := intToString_forall (fun x => x ≠ c) hdigit (fun hx => hminus hx.symm) n
  exact hall c (by rw [← h]; exact hc) rfl

/-- Every entry of the cache that `createFontRegistry` builds is a file of the
registry under its own key. -/
theorem createFontRegistry_mem (fonts : Fonts) (e : String × FontFileDefinition)
    (he : e ∈ createFontRegistry fonts) :
    ∃ entry ∈ fonts, ∃ d ∈ entry.2, e = (ownCacheKey entry.1 d, d) := by
  unfold createFontRegistry JSMap.ofEntries at he
  rcases JSMap.mem_foldl_set _ _ e he with h | h
  · simp at h
  · rw [cacheEntries_eq] at h
    obtain ⟨entry, hentry, h2⟩ := List.mem_flatMap.mp h
    obtain ⟨d, hd, rfl⟩ := List.mem_map.mp h2
    exact ⟨entry, hentry, d, hd, rfl⟩

theorem createFontRegistry_weightKeyed (fonts : Fonts) (e : String × FontFileDefinition)
    (he : e ∈ createFontRegistry fonts) : WeightKeyed e.1 := by
  obtain ⟨entry, _, d, _, rfl⟩ := createFontRegistry_mem fonts e he
  refine ⟨.str entry.1, JSValue.ofStr? d.style, JSValue.ofNum? d.weight, rfl,
    ofNum_template_chars d.weight, ?_⟩
  cases d.weight with
  | none => exact Or.inl rfl
  | some w => exact Or.inr ⟨w, rfl⟩

/-- A call of `lookup` leaves the cache as it is or sets the key of a family,
a style and a weight. -/
theorem lookup_cache_eq_or_set_key (fonts : Fonts) (cache : FontCache)
    (family : Option String) (options : LookupOptions) :
    (lookup fonts cache family options).2 = cache ∨
      ∃ (f s : String) (w : Int) (d : FontFileDefinition),
        (lookup fonts cache family options).2
          = cache.set (generateFontCacheKey (.str f) (.str s) (.num w)) d := by
  by_cases h : family = none ∨ family = some "" ∨
      ∃ f, family = some f ∧ (fonts.get f = none ∨ fonts.get f = some [])
  · rw [lookup_invalid fonts cache family options h]
    exact Or.inl rfl
  · cases family with
    | none => exact absurd (Or.inl rfl) h
    | some f =>
      have hfe : f ≠ "" := fun he => h (Or.inr (Or.inl (by rw [he])))
      cases hget : fonts.get f with
      | none => exact absurd (Or.inr (Or.inr ⟨f, rfl, Or.inl hget⟩)) h
      | some files =>
        have hne : files ≠ [] := fun he =>
          h (Or.inr (Or.inr ⟨f, rfl, Or.inr (by rw [hget, he])⟩))
        obtain ⟨d, hd⟩ := bestMatch_isSome (options.style.getD "normal")
          (options.weight.getD 400) files hne
        rw [lookup_valid fonts cache f files options d hfe hget hne hd]
        split_ifs
        · exact Or.inl rfl
        · split
          · exact Or.inl rfl
          · exact Or.inr ⟨f, _, _, d, rfl⟩

theorem lookup_weightKeyed (fonts : Fonts) (cache : FontCache) (family : Option String)
    (options : LookupOptions) (hcache : ∀ e ∈ cache, WeightKeyed e.1) :
    ∀ e ∈ (lookup fonts cache family options).2, WeightKeyed e.1 := by
  rcases lookup_cache_eq_or_set_key fonts cache family options with h | ⟨f, s, w, d, h⟩
  · rw [h]; exact hcache
  · rw [h]
    intro e he
    rcases JSMap.mem_set cache _ d e he with h1 | h1
    · exact hcache e h1
    · rw [h1]
      exact ⟨.str f, .str s, .num w, rfl, intToString_chars w, Or.inr ⟨w, rfl⟩⟩

/-- After every sequence of `lookup` calls on a fresh registry, every key of the
cache ends in a rendered weight. -/
theorem runLookups_weightKeyed (fonts : Fonts)
    (calls : List (Option String × LookupOptions)) (cache : FontCache)
    (hcache : ∀ e ∈ cache, WeightKeyed e.1) :
    ∀ e ∈ runLookups fonts cache calls, WeightKeyed e.1 := by
  induction calls generalizing cache with
  | nil => exact hcache
  | cons call calls ih =>
    exact ih _ (lookup_weightKeyed fonts cache call.1 call.2 hcache)

/-- A cache whose keys all end in a rendered weight has no entry under a key
that ends in a style which is not such a text. -/
theorem get_styleLast_eq_none (cache : FontCache) (family style : String) (weight : Int)
    (hcache : ∀ e ∈ cache, WeightKeyed e.1)
    (htilde : '~' ∉ style.toList) (hundef : style ≠ "undefined")
    (hnum : ∀ n : Int, style ≠ toString n) :
    cache.get (generateFontCacheKey (.str family) (.num weight) (.str style)) = none := by
  cases hget : cache.get (generateFontCacheKey (.str family) (.num weight) (.str style)) with
  | none => rfl
  | some d =>
    exfalso
    obtain ⟨a, b, c, hkey, hc, hlast⟩ := hcache _ (JSMap.mem_keys_of_get cache _ d hget)
    have hlast2 : (JSValue.str style).toTemplate = c.toTemplate :=
      generateFontCacheKey_last_inj _ _ _ _ _ _ htilde hc hkey
    have hstyle : style = c.toTemplate := hlast2
    rcases hlast with h | ⟨n, h⟩
    · exact hundef (hstyle.trans h)
    · exact hnum n (hstyle.trans h)

/-! ## Claims -/

/-- C1 as stated fails: the comparator subtracts in JavaScript numbers, which
round from `2 ^ 53` on. For the weights `2 ^ 53` and `2 ^ 53 - 1` and the
request -1 both distances are `2 ^ 53` in the code, so the first file is
returned, and the second has the smaller exact distance. -/
theorem lookup_ignoreCache_not_exact_minimal :
    ¬ ∀ (fonts : Fonts) (cache : FontCache) (family : String)
        (files : List FontFileDefinition) (style : String) (weight : Int),
      family ≠ "" → fonts.get family = some files → files ≠ [] →
        ∃ (i : Nat) (h : i < files.length),
          (lookup fonts cache (some family) ⟨some style, some weight, some true⟩).1
            = some (files.get ⟨i, h⟩) ∧
          ∀ (j : Nat) (hj : j < files.length), j ≠ i →
            ((if (files.get ⟨i, h⟩).style.getD "normal" = style then 0
                else if (files.get ⟨i, h⟩).style.getD "normal" = "normal" then 1 else 2)
              < (if (files.get ⟨j, hj⟩).style.getD "normal" = style then 0
                else if (files.get ⟨j, hj⟩).style.getD "normal" = "normal" then 1 else 2) ∨
            ((if (files.get ⟨i, h⟩).style.getD "normal" = style then 0
                else if (files.get ⟨i, h⟩).style.getD "normal" = "normal" then 1 else 2)
              = (if (files.get ⟨j, hj⟩).style.getD "normal" = style then 0
                else if (files.get ⟨j, hj⟩).style.getD "normal" = "normal" then 1 else 2) ∧
              (((files.get ⟨i, h⟩).weight.getD 400 - weight).natAbs
                  < ((files.get ⟨j, hj⟩).weight.getD 400 - weight).natAbs ∨
                (((files.get ⟨i, h⟩).weight.getD 400 - weight).natAbs
                    = ((files.get ⟨j, hj⟩).weight.getD 400 - weight).natAbs ∧ i < j)))) := by
  intro hall
  obtain ⟨i, hi, hres, hmin⟩ := hall bigFonts [] "Big" bigFiles "normal" (-1)
    (by decide) (by decide) (by decide)
  have hlook : (lookup bigFonts [] (some "Big") ⟨some "normal", some (-1), some true⟩).1
      = some (fontFile "Big-A" 9007199254740992 "normal") := by decide
  rw [hlook] at hres
  have hi2 : i = 0 ∨ i = 1 := by
    have : i < 2 := hi
    omega
  rcases hi2 with rfl | rfl
  · have h1 := hmin 1 (by decide) (by decide)
    simp [bigFiles, fontFile] at h1
  · simp [bigFiles, fontFile] at hres

/-- C1, amended: for a family (a non-empty name) that maps to a non-empty list
of font files whose effective weights are less than `2 ^ 53` away from the
requested weight, `lookup` with `ignoreCache` true returns the file at the one
index whose triple (style distance, weight distance, index) is
lexicographically below the triple of every other index. The style distance is
0 when the effective style is the requested one, 1 when it is not and is
`normal`, else 2; the weight distance is the absolute difference of the
effective and the requested weight; the effective style and weight are
`normal` and 400 when the file omits them. So no file has a smaller style
distance than the result, whatever the weight distances are. -/
theorem lookup_ignoreCache_minimal (fonts : Fonts) (cache : FontCache) (family : String)
    (files : List FontFileDefinition) (style : String) (weight : Int)
    (hfam : family ≠ "") (hget : fonts.get family = some files) (hne : files ≠ [])
    (hsafe : ∀ d ∈ files, (d.weight.getD 400 - weight).natAbs < 2 ^ 53) :
    ∃ (i : Nat) (h : i < files.length),
      (lookup fonts cache (some family) ⟨some style, some weight, some true⟩).1
        = some (files.get ⟨i, h⟩) ∧
      (∀ (j : Nat) (hj : j < files.length), j ≠ i →
        ((if (files.get ⟨i, h⟩).style.getD "normal" = style then 0
            else if (files.get ⟨i, h⟩).style.getD "normal" = "normal" then 1 else 2)
          < (if (files.get ⟨j, hj⟩).style.getD "normal" = style then 0
            else if (files.get ⟨j, hj⟩).style.getD "normal" = "normal" then 1 else 2) ∨
        ((if (files.get ⟨i, h⟩).style.getD "normal" = style then 0
            else if (files.get ⟨i, h⟩).style.getD "normal" = "normal" then 1 else 2)
          = (if (files.get ⟨j, hj⟩).style.getD "normal" = style then 0
            else if (files.get ⟨j, hj⟩).style.getD "normal" = "normal" then 1 else 2) ∧
          (((files.get ⟨i, h⟩).weight.getD 400 - weight).natAbs
              < ((files.get ⟨j, hj⟩).weight.getD 400 - weight).natAbs ∨
            (((files.get ⟨i, h⟩).weight.getD 400 - weight).natAbs
                = ((files.get ⟨j, hj⟩).weight.getD 400 - weight).natAbs ∧ i < j))))) ∧
      (∀ (j : Nat) (hj : j < files.length),
        (if (files.get ⟨i, h⟩).style.getD "normal" = style then 0
            else if (files.get ⟨i, h⟩).style.getD "normal" = "normal" then 1 else 2)
          ≤ (if (files.get ⟨j, hj⟩).style.getD "normal" = style then 0
            else if (files.get ⟨j, hj⟩).style.getD "normal" = "normal" then 1 else 2)) := by
  obtain ⟨i, h, hbest, hmin⟩ := bestMatch_spec style weight files hne
  have hmin2 : ∀ (j : Nat) (hj : j < files.length), j ≠ i →
      ((if (files.get ⟨i, h⟩).style.getD "normal" = style then 0
          else if (files.get ⟨i, h⟩).style.getD "normal" = "normal" then 1 else 2)
        < (if (files.get ⟨j, hj⟩).style.getD "normal" = style then 0
          else if (files.get ⟨j, hj⟩).style.getD "normal" = "normal" then 1 else 2) ∨
      ((if (files.get ⟨i, h⟩).style.getD "normal" = style then 0
          else if (files.get ⟨i, h⟩).style.getD "normal" = "normal" then 1 else 2)
        = (if (files.get ⟨j, hj⟩).style.getD "normal" = style then 0
          else if (files.get ⟨j, hj⟩).style.getD "normal" = "normal" then 1 else 2) ∧
        (((files.get ⟨i, h⟩).weight.getD 400 - weight).natAbs
            < ((files.get ⟨j, hj⟩).weight.getD 400 - weight).natAbs ∨
          (((files.get ⟨i, h⟩).weight.getD 400 - weight).natAbs
              = ((files.get ⟨j, hj⟩).weight.getD 400 - weight).natAbs ∧ i < j)))) := by
    intro j hj hji
    have hlex := hmin j hj hji
    rw [styleDistance_eq, styleDistance_eq,
      weightDistance_exact weight _ (hsafe _ (List.get_mem files i h)),
      weightDistance_exact weight _ (hsafe _ (List.get_mem files j hj))] at hlex
    exact hlex
  refine ⟨i, h, ?_, hmin2, ?_⟩
  · rw [lookup_valid fonts cache family files ⟨some style, some weight, some true⟩
      (files.get ⟨i, h⟩) hfam hget hne hbest]
    rfl
  · intro j hj
    by_cases hji : j = i
    · subst hji; exact Nat.le_refl _
    · have := hmin2 j hj hji
      omega

/-- C1, amended, at the style-before-weight example: for the request
(italic, 100) the italic file of weight 99 is returned, not the normal file of
weight 100; and of two normal files the one closer in weight is returned. -/
theorem lookup_ignoreCache_minimal_witness :
    (lookup sampleFonts [] (some "Demo") ⟨some "italic", some 100, some true⟩).1
      = some (fontFile "Demo-ThinItalic" 99 "italic") ∧
    (lookup weightFonts [] (some "Mont") ⟨some "normal", some 276, some true⟩).1
      = some (fontFile "Mont-Light" 300 "normal") ∧
    ∃ (i : Nat) (h : i < sampleFiles.length),
      (lookup sampleFonts [] (some "Demo") ⟨some "italic", some 100, some true⟩).1
        = some (sampleFiles.get ⟨i, h⟩) ∧
      (∀ (j : Nat) (hj : j < sampleFiles.length), j ≠ i →
        ((if (sampleFiles.get ⟨i, h⟩).style.getD "normal" = "italic" then 0
            else if (sampleFiles.get ⟨i, h⟩).style.getD "normal" = "normal" then 1 else 2)
          < (if (sampleFiles.get ⟨j, hj⟩).style.getD "normal" = "italic" then 0
            else if (sampleFiles.get ⟨j, hj⟩).style.getD "normal" = "normal" then 1 else 2) ∨
        ((if (sampleFiles.get ⟨i, h⟩).style.getD "normal" = "italic" then 0
            else if (sampleFiles.get ⟨i, h⟩).style.getD "normal" = "normal" then 1 else 2)
          = (if (sampleFiles.get ⟨j, hj⟩).style.getD "normal" = "italic" then 0
            else if (sampleFiles.get ⟨j, hj⟩).style.getD "normal" = "normal" then 1 else 2) ∧
          (((sampleFiles.get ⟨i, h⟩).weight.getD 400 - 100).natAbs
              < ((sampleFiles.get ⟨j, hj⟩).weight.getD 400 - 100).natAbs ∨
            (((sampleFiles.get ⟨i, h⟩).weight.getD 400 - 100).natAbs
                = ((sampleFiles.get ⟨j, hj⟩).weight.getD 400 - 100).natAbs ∧ i < j))))) ∧
      (∀ (j : Nat) (hj : j < sampleFiles.length),
        (if (sampleFiles.get ⟨i, h⟩).style.getD "normal" = "italic" then 0
            else if (sampleFiles.get ⟨i, h⟩).style.getD "normal" = "normal" then 1 else 2)
          ≤ (if (sampleFiles.get ⟨j, hj⟩).style.getD "normal" = "italic" then 0
            else if (sampleFiles.get ⟨j, hj⟩).style.getD "normal" = "normal" then 1 else 2)) :=
  ⟨by decide, by decide,
    lookup_ignoreCache_minimal sampleFonts [] "Demo" sampleFiles "italic" 100
      (by decide) (by decide) (by decide) (by decide)⟩

/-- C2: `lookup` returns null exactly when the family is unset, is the empty
string, is not a key of the registry or maps to an empty list; a family that
maps to at least one font file gets a font file, from every cache. -/
theorem lookup_eq_none_iff (fonts : Fonts) (cache : FontCache) (family : Option String)
    (options : LookupOptions) :
    ((lookup fonts cache family options).1 = none ↔
      (family = none ∨ family = some "" ∨
        ∃ f, family = some f ∧ (fonts.get f = none ∨ fonts.get f = some []))) ∧
    (∀ (f : String) (files : List FontFileDefinition),
      family = some f → f ≠ "" → fonts.get f = some files → files ≠ [] →
        ∃ d, (lookup fonts cache family options).1 = some d) := by
  constructor
  · constructor
    · intro hnone
      cases family with
      | none => exact Or.inl rfl
      | some f =>
        by_cases hfe : f = ""
        · exact Or.inr (Or.inl (by rw [hfe]))
        · refine Or.inr (Or.inr ⟨f, rfl, ?_⟩)
          cases hget : fonts.get f with
          | none => exact Or.inl rfl
          | some files =>
            by_cases hne : files = []
            · exact Or.inr (by rw [hne])
            · obtain ⟨d, hd⟩ := lookup_valid_isSome fonts cache f files options hfe hget hne
              rw [hd] at hnone
              exact absurd hnone (by simp)
    · intro h
      rw [lookup_invalid fonts cache family options h]
  · intro f files hf hfe hget hne
    subst hf
    exact lookup_valid_isSome fonts cache f files options hfe hget hne

/-- C3: the fast path of `lookup` reads the key of (family, weight, style), not
the key of (family, style, weight) that `findInCache` reads. Right after
`createFontRegistry` on a family with two files of style normal and weight 400,
`findInCache` returns the second file and `lookup` for the same request ranks
the files and returns the first. -/
theorem lookup_misses_findInCache_entry :
    findInCache (createFontRegistry twinFonts) "Twin" "normal" 400
      = some (fontFile "Twin-Second" 400 "normal") ∧
    (lookup twinFonts (createFontRegistry twinFonts) (some "Twin")
        ⟨some "normal", some 400, some false⟩).1
      = some (fontFile "Twin-First" 400 "normal") ∧
    fontFile "Twin-First" 400 "normal" ≠ fontFile "Twin-Second" 400 "normal" := by
  decide

/-- C4: when the fast path of `lookup` hits the key of (family, weight, style),
the result is returned and nothing is stored under the key of the request: for
the request (style "700", weight 400) on a family whose file has style "400"
and weight 700, `lookup` returns the file and `findInCache` for the same
request still returns null. -/
theorem lookup_hit_stores_nothing :
    (lookup numeralFonts (createFontRegistry numeralFonts) (some "Num")
        ⟨some "700", some 400, some false⟩).1
      = some (fontFile "Num-Bold" 700 "400") ∧
    findInCache
        (lookup numeralFonts (createFontRegistry numeralFonts) (some "Num")
          ⟨some "700", some 400, some false⟩).2
        "Num" "700" 400
      = none := by
  decide

/-- C5 as stated fails: the cache has one entry per key, so of two files of
a family with the same style and weight only the second is found. -/
theorem findInCache_own_not_every_file :
    ¬ ∀ (fonts : Fonts) (family : String) (files : List FontFileDefinition)
        (d : FontFileDefinition),
      fonts.get family = some files → d ∈ files →
        findInCache (createFontRegistry fonts) family (d.style.getD "normal")
          (d.weight.getD 400) = some d := by
  intro h
  have h1 := h twinFonts "Twin"
    [fontFile "Twin-First" 400 "normal", fontFile "Twin-Second" 400 "normal"]
    (fontFile "Twin-First" 400 "normal") (by decide) (by decide)
  revert h1
  decide

/-- C5, amended: right after `createFontRegistry`, for a file `d` of a family
that states its style and its weight, `findInCache` with the family and that
style and weight returns `d`, provided no file registered after `d` (later in
the list of the family, or in the list of a later family) has the same cache
key. -/
theorem findInCache_own_last (before after : Fonts) (family : String)
    (pre post : List FontFileDefinition) (d : FontFileDefinition)
    (style : String) (weight : Int)
    (hstyle : d.style = some style) (hweight : d.weight = some weight)
    (hpost : ∀ d' ∈ post, ownCacheKey family d' ≠ ownCacheKey family d)
    (hafter : ∀ e ∈ after, ∀ d' ∈ e.2, ownCacheKey e.1 d' ≠ ownCacheKey family d) :
    findInCache (createFontRegistry (before ++ (family, pre ++ d :: post) :: after))
      family style weight = some d := by
  have hkey : generateFontCacheKey (.str family) (.str style) (.num weight)
      = ownCacheKey family d := by
    unfold ownCacheKey
    rw [hstyle, hweight]
    rfl
  have hentries : cacheEntries (before ++ (family, pre ++ d :: post) :: after)
      = (before.flatMap (fun entry =>
            entry.2.map (fun file => (ownCacheKey entry.1 file, file)))
          ++ pre.map (fun file => (ownCacheKey family file, file)))
        ++ (ownCacheKey family d, d) ::
          (post.map (fun file => (ownCacheKey family file, file))
            ++ after.flatMap (fun entry =>
              entry.2.map (fun file => (ownCacheKey entry.1 file, file)))) := by
    rw [cacheEntries_eq]
    simp [List.flatMap_append, List.flatMap_cons]
  unfold findInCache createFontRegistry
  rw [hkey, hentries]
  apply JSMap.ofEntries_get_last
  intro e he
  rcases List.mem_append.mp he with h | h
  · obtain ⟨d', hd', rfl⟩ := List.mem_map.mp h
    exact hpost d' hd'
  · obtain ⟨entry, hentry, h2⟩ := List.mem_flatMap.mp h
    obtain ⟨d', hd', rfl⟩ := List.mem_map.mp h2
    exact hafter entry hentry d' hd'

/-- C5, amended, for the first file of the example registry. -/
theorem findInCache_own_last_witness :
    findInCache
      (createFontRegistry
        ([] ++ ("Demo", [] ++ fontFile "Demo-Thin" 100 "normal"
          :: [fontFile "Demo-ThinItalic" 99 "italic"]) :: []))
      "Demo" "normal" 100 = some (fontFile "Demo-Thin" 100 "normal") :=
  findInCache_own_last [] [] "Demo" [] [fontFile "Demo-ThinItalic" 99 "italic"]
    (fontFile "Demo-Thin" 100 "normal") "normal" 100 rfl rfl (by decide) (by decide)

/-- C6: from every cache and for every family, style, weight and `ignoreCache`
flag (so also without `ignoreCache`), two `lookup` calls in a row with the same
request return the same result; for a family (a non-empty name) that maps to at
least one font file that result is a font file. -/
theorem lookup_twice_same (fonts : Fonts) (cache : FontCache) (family : Option String)
    (options : LookupOptions) :
    (lookup fonts (lookup fonts cache family options).2 family options).1
      = (lookup fonts cache family options).1 ∧
    (∀ (f : String) (files : List FontFileDefinition),
      family = some f → f ≠ "" → fonts.get f = some files → files ≠ [] →
        ∃ d, (lookup fonts cache family options).1 = some d) := by
  constructor
  · by_cases h : family = none ∨ family = some "" ∨
        ∃ f, family = some f ∧ (fonts.get f = none ∨ fonts.get f = some [])
    · rw [lookup_invalid fonts cache family options h, lookup_invalid fonts cache family options h]
    · cases family with
      | none => exact absurd (Or.inl rfl) h
      | some f =>
        have hfe : f ≠ "" := fun he => h (Or.inr (Or.inl (by rw [he])))
        cases hget : fonts.get f with
        | none => exact absurd (Or.inr (Or.inr ⟨f, rfl, Or.inl hget⟩)) h
        | some files =>
          have hne : files ≠ [] := fun he =>
            h (Or.inr (Or.inr ⟨f, rfl, Or.inr (by rw [hget, he])⟩))
          obtain ⟨d, hd⟩ := bestMatch_isSome (options.style.getD "normal")
            (options.weight.getD 400) files hne
          rw [lookup_valid fonts cache f files options d hfe hget hne hd]
          cases hic : options.ignoreCache.getD false with
          | true =>
            simp only [if_true]
            rw [lookup_valid fonts cache f files options d hfe hget hne hd]
            simp only [hic, if_true]
          | false =>
            simp only [Bool.false_eq_true, if_false]
            cases hc : cache.get (generateFontCacheKey (.str f)
                (.num (options.weight.getD 400)) (.str (options.style.getD "normal"))) with
            | some cachedFont =>
              simp only []
              rw [lookup_valid fonts cache f files options d hfe hget hne hd]
              simp only [hic, Bool.false_eq_true, if_false, hc]
            | none =>
              simp only []
              rw [lookup_valid fonts _ f files options d hfe hget hne hd]
              simp only [hic, Bool.false_eq_true, if_false, JSMap.get_set, hc]
              split_ifs <;> rfl
  · intro f files hf hfe hget hne
    subst hf
    exact lookup_valid_isSome fonts cache f files options hfe hget hne

/-- C7: a later `lookup` can change what a request returns although the key of
the request has been in the cache from the start. With the families "a~~~1" and
"a", the request ("a~~~1", style "5", weight 2) returns the file of "a~~~1";
after the request ("a", style "1~~~2", weight 5), whose key is the key of
("a~~~1", 2, "5") that the fast path reads, it returns the file of "a". -/
theorem lookup_changes_after_other_lookup :
    findInCache (createFontRegistry separatorFonts) "a~~~1" "5" 2
      = some (fontFile "First" 2 "5") ∧
    (lookup separatorFonts (createFontRegistry separatorFonts) (some "a~~~1")
        ⟨some "5", some 2, some false⟩).1
      = some (fontFile "First" 2 "5") ∧
    (lookup separatorFonts
        (runLookups separatorFonts (createFontRegistry separatorFonts)
          [(some "a~~~1", ⟨some "5", some 2, some false⟩),
           (some "a", ⟨some "1~~~2", some 5, some false⟩)])
        (some "a~~~1") ⟨some "5", some 2, some false⟩).1
      = some (fontFile "Second" 400 "normal") := by
  decide

/-- C8: `lookup` with `ignoreCache` true returns the cache it was given, returns
the same result from any two caches, and so leaves every key that
`findInCache` did not find still not found. -/
theorem lookup_ignoreCache_frame (fonts : Fonts) (cache cache' : FontCache)
    (family : Option String) (style : Option String) (weight : Option Int) :
    (lookup fonts cache family ⟨style, weight, some true⟩).2 = cache ∧
    (lookup fonts cache family ⟨style, weight, some true⟩).1
      = (lookup fonts cache' family ⟨style, weight, some true⟩).1 ∧
    (∀ (f s : String) (w : Int), findInCache cache f s w = none →
      findInCache (lookup fonts cache family ⟨style, weight, some true⟩).2 f s w = none) := by
  have key : ∀ c : FontCache,
      (lookup fonts c family ⟨style, weight, some true⟩).2 = c ∧
      (lookup fonts c family ⟨style, weight, some true⟩).1
        = (lookup fonts [] family ⟨style, weight, some true⟩).1 := by
    intro c
    by_cases h : family = none ∨ family = some "" ∨
        ∃ f, family = some f ∧ (fonts.get f = none ∨ fonts.get f = some [])
    · rw [lookup_invalid fonts c family _ h, lookup_invalid fonts [] family _ h]
      exact ⟨rfl, rfl⟩
    · cases family with
      | none => exact absurd (Or.inl rfl) h
      | some f =>
        have hfe : f ≠ "" := fun he => h (Or.inr (Or.inl (by rw [he])))
        cases hget : fonts.get f with
        | none => exact absurd (Or.inr (Or.inr ⟨f, rfl, Or.inl hget⟩)) h
        | some files =>
          have hne : files ≠ [] := fun he =>
            h (Or.inr (Or.inr ⟨f, rfl, Or.inr (by rw [hget, he])⟩))
          obtain ⟨d, hd⟩ := bestMatch_isSome (style.getD "normal") (weight.getD 400) files hne
          rw [lookup_valid fonts c f files ⟨style, weight, some true⟩ d hfe hget hne hd,
            lookup_valid fonts [] f files ⟨style, weight, some true⟩ d hfe hget hne hd]
          exact ⟨rfl, rfl⟩
  refine ⟨(key cache).1, ?_, ?_⟩
  · rw [(key cache).2, (key cache').2]
  · intro f s w hnone
    rw [(key cache).1]
    exact hnone

/-- C9: when the family is unset, is the empty string, is not a key of the
registry or maps to an empty list, `lookup` returns null and the cache it was
given. -/
theorem lookup_invalid_family (fonts : Fonts) (cache : FontCache) (family : Option String)
    (options : LookupOptions)
    (h : family = none ∨ family = some "" ∨
      ∃ f, family = some f ∧ (fonts.get f = none ∨ fonts.get f = some [])) :
    (lookup fonts cache family options).1 = none ∧
    (lookup fonts cache family options).2 = cache := by
  rw [lookup_invalid fonts cache family options h]
  exact ⟨rfl, rfl⟩

/-- C9 for a family that is not in the example registry. -/
theorem lookup_invalid_family_witness :
    (lookup sampleFonts (createFontRegistry sampleFonts) (some "FakeFontFamily")
        ⟨none, none, none⟩).1 = none ∧
    (lookup sampleFonts (createFontRegistry sampleFonts) (some "FakeFontFamily")
        ⟨none, none, none⟩).2 = createFontRegistry sampleFonts :=
  lookup_invalid_family sampleFonts (createFontRegistry sampleFonts) (some "FakeFontFamily")
    ⟨none, none, none⟩ (Or.inr (Or.inr ⟨"FakeFontFamily", rfl, Or.inl (by decide)⟩))

/-- C10 as stated fails: a separator inside a family or a style moves the
boundary between them, so two different triples have the same key. -/
theorem generateFontCacheKey_not_injective :
    ¬ ∀ (f1 f2 s1 s2 : String) (w1 w2 : Int),
      generateFontCacheKey (.str f1) (.str s1) (.num w1)
        = generateFontCacheKey (.str f2) (.str s2) (.num w2) →
      f1 = f2 ∧ s1 = s2 ∧ w1 = w2 := by
  intro h
  have h1 := h "a~~~b" "a" "c" "b~~~c" 1 1 (by decide)
  exact absurd h1.1 (by decide)

/-- C10, amended: on families that do not contain the character `~`, with any
styles and any integer weights, `generateFontCacheKey` is injective. -/
theorem generateFontCacheKey_injective (f1 f2 s1 s2 : String) (w1 w2 : Int)
    (h1 : '~' ∉ f1.toList) (h2 : '~' ∉ f2.toList)
    (h : generateFontCacheKey (.str f1) (.str s1) (.num w1)
      = generateFontCacheKey (.str f2) (.str s2) (.num w2)) :
    f1 = f2 ∧ s1 = s2 ∧ w1 = w2 := by
  obtain ⟨hf, hs, hw⟩ := generateFontCacheKey_template_inj (.str f1) (.str s1) (.num w1)
    (.str f2) (.str s2) (.num w2) h1 h2 (intToString_chars w1) (intToString_chars w2) h
  exact ⟨hf, hs, intToString_injective w1 w2 hw⟩

/-- C10, amended, at the key of (Demo, italic, 99). -/
theorem generateFontCacheKey_injective_witness :
    ('~' ∉ "Demo".toList ∧
      generateFontCacheKey (.str "Demo") (.str "italic") (.num 99)
        = generateFontCacheKey (.str "Demo") (.str "italic") (.num 99)) ∧
    ("Demo" = "Demo" ∧ "italic" = "italic" ∧ (99 : Int) = 99) :=
  ⟨⟨by decide, rfl⟩,
    generateFontCacheKey_injective "Demo" "Demo" "italic" "italic" 99 99
      (by decide) (by decide) rfl⟩

/-- C11 as stated fails: a separator inside a style moves the boundary between
family and style, so `findInCache` finds a file under a family that the
registry does not have. -/
theorem findInCache_fresh_not_only_exact :
    ¬ ∀ (fonts : Fonts) (family style : String) (weight : Int) (d : FontFileDefinition),
      findInCache (createFontRegistry fonts) family style weight = some d →
        ∃ files, fonts.get family = some files ∧
          ∃ d' ∈ files, d'.style = some style ∧ d'.weight = some weight := by
  intro h
  obtain ⟨files, hfiles, _⟩ := h styleSeparatorFonts "a~~~b" "c" 1 (fontFile "Odd" 1 "b~~~c")
    (by decide)
  have hnone : styleSeparatorFonts.get "a~~~b" = none := by decide
  rw [hnone] at hfiles
  exact absurd hfiles (by simp)

/-- C11, amended: right after `createFontRegistry`, when neither the requested
family nor a family of the registry contains the character `~` and the
requested style is not the text "undefined", `findInCache` returns a file only
if the family is a key of the registry and the file is in a list registered
for it and states exactly the requested style and weight. -/
theorem findInCache_fresh_exact (fonts : Fonts) (family style : String) (weight : Int)
    (d : FontFileDefinition)
    (hfonts : ∀ e ∈ fonts, '~' ∉ e.1.toList) (hfamily : '~' ∉ family.toList)
    (hstyle : style ≠ "undefined")
    (hfind : findInCache (createFontRegistry fonts) family style weight = some d) :
    (fonts.get family).isSome = true ∧
    ∃ files, (family, files) ∈ fonts ∧ d ∈ files ∧
      d.style = some style ∧ d.weight = some weight := by
  obtain ⟨e, he, hd, hkey⟩ := createFontRegistry_get fonts _ d hfind
  obtain ⟨hf, hs, hw⟩ := generateFontCacheKey_template_inj (.str e.1)
    (JSValue.ofStr? d.style) (JSValue.ofNum? d.weight) (.str family) (.str style) (.num weight)
    (hfonts e he) hfamily (ofNum_template_chars d.weight) (intToString_chars weight) hkey
  have hf2 : e.1 = family := hf
  have hmem : (family, e.2) ∈ fonts := by rw [← hf2]; exact he
  refine ⟨JSMap.get_isSome_of_mem fonts family e.2 hmem, e.2, hmem, hd, ?_, ?_⟩
  · cases hds : d.style with
    | none =>
      rw [hds] at hs
      exact absurd hs.symm hstyle
    | some s' =>
      rw [hds] at hs
      have hs2 : s' = style := hs
      rw [hs2]
  · cases hdw : d.weight with
    | none =>
      rw [hdw] at hw
      exact absurd hw.symm (intToString_ne_undefined weight)
    | some w' =>
      rw [hdw] at hw
      rw [intToString_injective w' weight hw]

/-- C11, amended, for the italic file of the example registry. -/
theorem findInCache_fresh_exact_witness :
    (sampleFonts.get "Demo").isSome = true ∧
    ∃ files, ("Demo", files) ∈ sampleFonts ∧ fontFile "Demo-ThinItalic" 99 "italic" ∈ files ∧
      (fontFile "Demo-ThinItalic" 99 "italic").style = some "italic" ∧
      (fontFile "Demo-ThinItalic" 99 "italic").weight = some 99 :=
  findInCache_fresh_exact sampleFonts "Demo" "italic" 99 (fontFile "Demo-ThinItalic" 99 "italic")
    (by decide) (by decide) (by decide) (by decide)

/-- C12: a key that is in the cache before a call of `lookup` or of
`createFontStyles`, with any arguments and from any cache, is in the cache
after the call; `findInCache` only reads the cache. -/
theorem cache_never_shrinks (fonts : Fonts) (cache : FontCache) (k : String)
    (hk : (cache.get k).isSome = true) :
    (∀ (family : Option String) (options : LookupOptions),
      ((lookup fonts cache family options).2.get k).isSome = true) ∧
    (∀ (platform : Platform) (family : Option String) (options : FontStyleOptions)
        (ignoreCache : Option Bool),
      ((createFontStyles platform fonts cache family options ignoreCache).2.get k).isSome
        = true) := by
  constructor
  · intro family options
    exact lookup_keeps_keys fonts cache family options k hk
  · intro platform family options ignoreCache
    rw [createFontStyles_cache]
    exact lookup_keeps_keys fonts cache family _ k hk

/-- C12 for a key of the cache that `createFontRegistry` builds for the example. -/
theorem cache_never_shrinks_witness :
    (∀ (family : Option String) (options : LookupOptions),
      ((lookup sampleFonts (createFontRegistry sampleFonts) family options).2.get
        "Demo~~~normal~~~100").isSome = true) ∧
    (∀ (platform : Platform) (family : Option String) (options : FontStyleOptions)
        (ignoreCache : Option Bool),
      ((createFontStyles platform sampleFonts (createFontRegistry sampleFonts) family options
        ignoreCache).2.get "Demo~~~normal~~~100").isSome = true) :=
  cache_never_shrinks sampleFonts (createFontRegistry sampleFonts) "Demo~~~normal~~~100"
    (by decide)

/-- C13: `lookup` replaces the value of a key that the eager population has
filled. On a family with two files of style normal and weight 400 the key of
(normal, 400) holds the second file; `lookup` for that request misses on the
key of (family, weight, style), ranks, and stores the first file under it. -/
theorem lookup_overwrites_entry :
    findInCache (createFontRegistry twinFonts) "Twin" "normal" 400
      = some (fontFile "Twin-Second" 400 "normal") ∧
    findInCache
        (lookup twinFonts (createFontRegistry twinFonts) (some "Twin")
          ⟨some "normal", some 400, some false⟩).2
        "Twin" "normal" 400
      = some (fontFile "Twin-First" 400 "normal") := by
  decide

/-- C14: on a fresh registry `lookup` can return a file of another style
although the family has a file of the requested style. For the request
(style "700", weight 400) the fast path reads the key of (family, 400, "700"),
which is the key of the file with style "400" and weight 700. -/
theorem lookup_returns_other_style :
    crossedFonts.get "Num"
      = some [fontFile "Num-First" 700 "400", fontFile "Num-Second" 400 "700"] ∧
    (fontFile "Num-Second" 400 "700").style.getD "normal" = "700" ∧
    (lookup crossedFonts (createFontRegistry crossedFonts) (some "Num")
        ⟨some "700", some 400, none⟩).1
      = some (fontFile "Num-First" 700 "400") ∧
    (fontFile "Num-First" 700 "400").style.getD "normal" ≠ "700" := by
  decide

/-- C15 as stated fails: the comparator subtracts in JavaScript numbers, which
round from `2 ^ 53` on. On a fresh registry with normal files of the weights
`2 ^ 53` and `2 ^ 53 - 1`, the request -1 gets the first file, and the second
is closer. -/
theorem lookup_normal_not_exact_closest :
    ¬ ∀ (fonts : Fonts) (family : String) (files : List FontFileDefinition) (weight : Int),
      family ≠ "" → fonts.get family = some files →
      (∃ d ∈ files, d.style.getD "normal" = "normal") →
        ∃ (i : Nat) (h : i < files.length),
          (lookup fonts (createFontRegistry fonts) (some family) ⟨none, some weight, none⟩).1
            = some (files.get ⟨i, h⟩) ∧
          (files.get ⟨i, h⟩).style.getD "normal" = "normal" ∧
          ∀ (j : Nat) (hj : j < files.length),
            (files.get ⟨j, hj⟩).style.getD "normal" = "normal" →
              ((files.get ⟨i, h⟩).weight.getD 400 - weight).natAbs
                ≤ ((files.get ⟨j, hj⟩).weight.getD 400 - weight).natAbs := by
  intro hall
  obtain ⟨i, hi, hres, _, hmin⟩ := hall bigFonts "Big" bigFiles (-1) (by decide) (by decide)
    ⟨fontFile "Big-A" 9007199254740992 "normal", by decide, by decide⟩
  have hlook : (lookup bigFonts (createFontRegistry bigFonts) (some "Big")
      ⟨none, some (-1), none⟩).1 = some (fontFile "Big-A" 9007199254740992 "normal") := by
    decide
  rw [hlook] at hres
  have hi2 : i = 0 ∨ i = 1 := by
    have : i < 2 := hi
    omega
  rcases hi2 with rfl | rfl
  · have h1 := hmin 1 (by decide) (by decide)
    simp [bigFiles, fontFile] at h1
  · simp [bigFiles, fontFile] at hres

/-- C15, amended: on a fresh registry, for a family (a non-empty name) with at
least one file of effective style normal, and for every integer weight that is
less than `2 ^ 53` away from the effective weight of each normal file of the
family, `lookup` with the default style and the default `ignoreCache` returns a
file of effective style normal whose absolute difference of effective and
requested weight is at most that of every normal file of the family, and below
it or equal with a smaller index for every other one. -/
theorem lookup_normal_closest_weight (fonts : Fonts) (family : String)
    (files : List FontFileDefinition) (weight : Int)
    (hfam : family ≠ "") (hget : fonts.get family = some files)
    (hnormal : ∃ d ∈ files, d.style.getD "normal" = "normal")
    (hsafe : ∀ d ∈ files, d.style.getD "normal" = "normal" →
      (d.weight.getD 400 - weight).natAbs < 2 ^ 53) :
    ∃ (i : Nat) (h : i < files.length),
      (lookup fonts (createFontRegistry fonts) (some family) ⟨none, some weight, none⟩).1
        = some (files.get ⟨i, h⟩) ∧
      (files.get ⟨i, h⟩).style.getD "normal" = "normal" ∧
      ∀ (j : Nat) (hj : j < files.length),
        (files.get ⟨j, hj⟩).style.getD "normal" = "normal" →
          ((files.get ⟨i, h⟩).weight.getD 400 - weight).natAbs
              ≤ ((files.get ⟨j, hj⟩).weight.getD 400 - weight).natAbs ∧
          (j ≠ i →
            ((files.get ⟨i, h⟩).weight.getD 400 - weight).natAbs
                < ((files.get ⟨j, hj⟩).weight.getD 400 - weight).natAbs ∨
              (((files.get ⟨i, h⟩).weight.getD 400 - weight).natAbs
                  = ((files.get ⟨j, hj⟩).weight.getD 400 - weight).natAbs ∧ i < j)) := by
  obtain ⟨d0, hd0, hs0⟩ := hnormal
  have hne : files ≠ [] := List.ne_nil_of_mem hd0
  obtain ⟨i, h, hbest, hmin⟩ := bestMatch_spec "normal" weight files hne
  have hzero : ∀ d : FontFileDefinition,
      d.style.getD "normal" = "normal" → styleDistance "normal" d = 0 := by
    intro d hd
    simp [styleDistance, hd]
  have hpos : ∀ d : FontFileDefinition,
      styleDistance "normal" d = 0 → d.style.getD "normal" = "normal" := by
    intro d hd
    by_contra hcon
    simp [styleDistance, hcon] at hd
  obtain ⟨j0, hj0eq⟩ := List.mem_iff_get.mp hd0
  have hi0 : styleDistance "normal" (files.get ⟨i, h⟩) = 0 := by
    by_cases hji : j0.1 = i
    · have : files.get ⟨i, h⟩ = d0 := by
        rw [← hj0eq]; congr 1; exact Fin.ext hji.symm
      rw [this]; exact hzero d0 hs0
    · have hlex := hmin j0.1 j0.2 hji
      have hz : styleDistance "normal" (files.get ⟨j0.1, j0.2⟩) = 0 := by
        have : files.get ⟨j0.1, j0.2⟩ = d0 := hj0eq
        rw [this]; exact hzero d0 hs0
      omega
  have hin : (files.get ⟨i, h⟩).style.getD "normal" = "normal" := hpos _ hi0
  have hwi := weightDistance_exact weight _ (hsafe _ (List.get_mem files i h) hin)
  refine ⟨i, h, ?_, hin, ?_⟩
  · rw [lookup_valid fonts (createFontRegistry fonts) family files ⟨none, some weight, none⟩
      (files.get ⟨i, h⟩) hfam hget hne hbest]
    simp only [Option.getD_none, Option.getD_some, Bool.false_eq_true, if_false,
      createFontRegistry_get_normal_last fonts family weight]
  · intro j hj hjs
    have hzj := hzero _ hjs
    have hwj := weightDistance_exact weight _ (hsafe _ (List.get_mem files j hj) hjs)
    by_cases hji : j = i
    · subst hji
      exact ⟨Nat.le_refl _, fun hcon => absurd rfl hcon⟩
    · have hlex := hmin j hj hji
      rw [hwi, hwj] at hlex
      constructor
      · omega
      · intro _
        omega

/-- C15, amended, for the weights 250 and 300: the request 276 gets the file of
weight 300 and the request 274 the file of weight 250. -/
theorem lookup_normal_closest_weight_witness :
    (lookup weightFonts (createFontRegistry weightFonts) (some "Mont")
        ⟨none, some 276, none⟩).1 = some (fontFile "Mont-Light" 300 "normal") ∧
    (lookup weightFonts (createFontRegistry weightFonts) (some "Mont")
        ⟨none, some 274, none⟩).1 = some (fontFile "Mont-Thin" 250 "normal") ∧
    ∃ (i : Nat) (h : i < weightFiles.length),
      (lookup weightFonts (createFontRegistry weightFonts) (some "Mont")
          ⟨none, some 276, none⟩).1
        = some (weightFiles.get ⟨i, h⟩) ∧
      (weightFiles.get ⟨i, h⟩).style.getD "normal" = "normal" ∧
      ∀ (j : Nat) (hj : j < weightFiles.length),
        (weightFiles.get ⟨j, hj⟩).style.getD "normal" = "normal" →
          ((weightFiles.get ⟨i, h⟩).weight.getD 400 - 276).natAbs
              ≤ ((weightFiles.get ⟨j, hj⟩).weight.getD 400 - 276).natAbs ∧
          (j ≠ i →
            ((weightFiles.get ⟨i, h⟩).weight.getD 400 - 276).natAbs
                < ((weightFiles.get ⟨j, hj⟩).weight.getD 400 - 276).natAbs ∨
              (((weightFiles.get ⟨i, h⟩).weight.getD 400 - 276).natAbs
                  = ((weightFiles.get ⟨j, hj⟩).weight.getD 400 - 276).natAbs ∧ i < j)) :=
  ⟨by decide, by decide,
    lookup_normal_closest_weight weightFonts "Mont" weightFiles 276 (by decide) (by decide)
      ⟨fontFile "Mont-Thin" 250 "normal", by decide, by decide⟩ (by decide)⟩

/-- C16: when `lookup` returns null for the family, `createFontStyles` returns,
on every platform, the object of the properties other than `style` and
`weight` as it is (an object has each property name once). -/
theorem createFontStyles_unknown_family (platform : Platform) (fonts : Fonts)
    (cache : FontCache) (family : Option String) (options : FontStyleOptions)
    (ignoreCache : Option Bool)
    (hnone : (lookup fonts cache family ⟨options.style, options.weight, ignoreCache⟩).1 = none)
    (hnodup : (options.rest.map Prod.fst).Nodup) :
    (createFontStyles platform fonts cache family options ignoreCache).1 = options.rest := by
  rw [createFontStyles_of_none platform fonts cache family options ignoreCache hnone,
    spreadInto_of_disjoint [] options.rest hnodup (by simp)]
  rfl

/-- C16 for a family that is not in the example registry. -/
theorem createFontStyles_unknown_family_witness :
    (createFontStyles Platform.ios sampleFonts (createFontRegistry sampleFonts)
        (some "FakeFontFamily")
        ⟨some "italic", some 700, [("color", .str "red"), ("fontSize", .num 12)]⟩ none).1
      = [("color", .str "red"), ("fontSize", .num 12)] :=
  createFontStyles_unknown_family Platform.ios sampleFonts (createFontRegistry sampleFonts)
    (some "FakeFontFamily")
    ⟨some "italic", some 700, [("color", .str "red"), ("fontSize", .num 12)]⟩ none
    (by decide) (by decide)

/-- C17: on ios `createFontStyles` writes "400" for a file that states the
weight 0, which the ranking reads as 0: `fontFile.weight || 400` takes the
default for every falsy weight, not only for a missing one. -/
theorem createFontStyles_ios_weight_zero :
    (lookup zeroFonts (createFontRegistry zeroFonts) (some "Zero") ⟨none, none, none⟩).1
      = some (fontFile "Zero-Thin" 0 "normal") ∧
    (fontFile "Zero-Thin" 0 "normal").weight = some 0 ∧
    weightDistance 0 (fontFile "Zero-Thin" 0 "normal") = 0 ∧
    (createFontStyles Platform.ios zeroFonts (createFontRegistry zeroFonts) (some "Zero")
        ⟨none, none, []⟩ none).1
      = [("fontFamily", .str "Zero-Thin"), ("fontWeight", .str "400"),
         ("fontStyle", .str "normal")] := by
  decide

/-- C18: on android, for a family (a non-empty name) that maps to at least one
font file and an options object with no other property than `style` and
`weight`, `createFontStyles` returns the object whose only property is
`fontFamily`; for the file that `lookup` returns its value is the `fileName`
when that is stated and not empty, else the `name`, and undefined when the name
is omitted too. The object has no `fontWeight` and no `fontStyle`. -/
theorem createFontStyles_android (fonts : Fonts) (cache : FontCache) (family : String)
    (files : List FontFileDefinition) (style : Option String) (weight : Option Int)
    (ignoreCache : Option Bool)
    (hfam : family ≠ "") (hget : fonts.get family = some files) (hne : files ≠ []) :
    ∃ d, (lookup fonts cache (some family) ⟨style, weight, ignoreCache⟩).1 = some d ∧
      (∀ s : String, d.fileName = some s → s ≠ "" →
        (createFontStyles Platform.android fonts cache (some family) ⟨style, weight, []⟩
            ignoreCache).1 = [("fontFamily", JSValue.str s)]) ∧
      ((d.fileName = none ∨ d.fileName = some "") → ∀ n : String, d.name = some n →
        (createFontStyles Platform.android fonts cache (some family) ⟨style, weight, []⟩
            ignoreCache).1 = [("fontFamily", JSValue.str n)]) ∧
      ((d.fileName = none ∨ d.fileName = some "") → d.name = none →
        (createFontStyles Platform.android fonts cache (some family) ⟨style, weight, []⟩
            ignoreCache).1 = [("fontFamily", JSValue.undefined)]) ∧
      (createFontStyles Platform.android fonts cache (some family) ⟨style, weight, []⟩
          ignoreCache).1.get "fontWeight" = none ∧
      (createFontStyles Platform.android fonts cache (some family) ⟨style, weight, []⟩
          ignoreCache).1.get "fontStyle" = none := by
  obtain ⟨d, hd⟩ := lookup_valid_isSome fonts cache family files ⟨style, weight, ignoreCache⟩
    hfam hget hne
  have hobj : (createFontStyles Platform.android fonts cache (some family) ⟨style, weight, []⟩
      ignoreCache).1 = [("fontFamily", JSValue.ofStr? (strOr d.fileName d.name))] :=
    createFontStyles_of_some Platform.android fonts cache (some family)
      ⟨style, weight, []⟩ ignoreCache d hd
  refine ⟨d, hd, ?_, ?_, ?_, ?_, ?_⟩
  · intro s hs hse
    rw [hobj, hs]
    simp [strOr, hse, JSValue.ofStr?]
  · intro hfile n hn
    rw [hobj, hn]
    rcases hfile with h | h <;> rw [h] <;> simp [strOr, JSValue.ofStr?]
  · intro hfile hn
    rw [hobj, hn]
    rcases hfile with h | h <;> rw [h] <;> simp [strOr, JSValue.ofStr?]
  · rw [hobj]; rfl
  · rw [hobj]; rfl

/-- C18 for a file that states a file name next to its name: the file name is
the `fontFamily`. -/
theorem createFontStyles_android_witness :
    (createFontStyles Platform.android namedFonts [] (some "Named") ⟨none, none, []⟩ none).1
      = [("fontFamily", JSValue.str "named_regular")] ∧
    (createFontStyles Platform.android sampleFonts [] (some "Demo")
        ⟨some "italic", some 100, []⟩ none).1
      = [("fontFamily", JSValue.str "Demo-ThinItalic")] ∧
    ∃ d, (lookup namedFonts [] (some "Named") ⟨none, none, none⟩).1 = some d ∧
      (∀ s : String, d.fileName = some s → s ≠ "" →
        (createFontStyles Platform.android namedFonts [] (some "Named") ⟨none, none, []⟩
            none).1 = [("fontFamily", JSValue.str s)]) ∧
      ((d.fileName = none ∨ d.fileName = some "") → ∀ n : String, d.name = some n →
        (createFontStyles Platform.android namedFonts [] (some "Named") ⟨none, none, []⟩
            none).1 = [("fontFamily", JSValue.str n)]) ∧
      ((d.fileName = none ∨ d.fileName = some "") → d.name = none →
        (createFontStyles Platform.android namedFonts [] (some "Named") ⟨none, none, []⟩
            none).1 = [("fontFamily", JSValue.undefined)]) ∧
      (createFontStyles Platform.android namedFonts [] (some "Named") ⟨none, none, []⟩
          none).1.get "fontWeight" = none ∧
      (createFontStyles Platform.android namedFonts [] (some "Named") ⟨none, none, []⟩
          none).1.get "fontStyle" = none :=
  ⟨by decide, by decide,
    createFontStyles_android namedFonts [] "Named"
      [⟨some "Named-Regular", some "named_regular", some "Named-PS", some 400, some "normal"⟩]
      none none none (by decide) (by decide) (by decide)⟩

/-- C19: on both platforms, for a family (a non-empty name) that maps to at
least one font file, every property of the object of the other properties (an
object has each property name once) is in the result of `createFontStyles`
with its value, also under the names `fontFamily`, `fontWeight` and
`fontStyle`; and every property of the result is one of those or one that the
platform writes. -/
theorem createFontStyles_rest (platform : Platform) (fonts : Fonts) (cache : FontCache)
    (family : String) (files : List FontFileDefinition) (options : FontStyleOptions)
    (ignoreCache : Option Bool)
    (hfam : family ≠ "") (hget : fonts.get family = some files) (hne : files ≠ [])
    (hnodup : (options.rest.map Prod.fst).Nodup) :
    (∀ (k : String) (v : JSValue), options.rest.get k = some v →
      (createFontStyles platform fonts cache (some family) options ignoreCache).1.get k
        = some v) ∧
    (∀ (k : String),
      ((createFontStyles platform fonts cache (some family) options ignoreCache).1.get k).isSome
        = true →
      (options.rest.get k).isSome = true ∨ k ∈ fontStyleKeys platform) := by
  obtain ⟨d, hd⟩ := lookup_valid_isSome fonts cache family files
    ⟨options.style, options.weight, ignoreCache⟩ hfam hget hne
  rw [createFontStyles_of_some platform fonts cache (some family) options ignoreCache d hd]
  constructor
  · intro k v hkv
    cases platform <;>
      simp only [Platform.select, spreadInto_get _ _ k hnodup, hkv]
  · intro k hk
    cases hrest : options.rest.get k with
    | some v => exact Or.inl rfl
    | none =>
      right
      cases platform
      · simp only [Platform.select, spreadInto_get _ _ k hnodup, hrest] at hk
        simp only [fontStyleKeys, Platform.select, List.mem_singleton]
        by_contra hne1
        have h1 : ¬ "fontFamily" = k := fun h => hne1 h.symm
        simp [JSMap.get, h1] at hk
      · simp only [Platform.select, spreadInto_get _ _ k hnodup, hrest] at hk
        simp only [fontStyleKeys, Platform.select, List.mem_cons, List.mem_singleton,
          List.mem_nil_iff, or_false]
        by_contra hne1
        simp only [not_or] at hne1
        have h1 : ¬ "fontFamily" = k := fun h => hne1.1 h.symm
        have h2 : ¬ "fontWeight" = k := fun h => hne1.2.1 h.symm
        have h3 : ¬ "fontStyle" = k := fun h => hne1.2.2 h.symm
        simp [JSMap.get, h1, h2, h3] at hk

/-- C19 on ios for the example registry, with a `fontFamily` and a `color`
among the other properties. -/
theorem createFontStyles_rest_witness :
    (∀ (k : String) (v : JSValue),
      JSMap.get [("fontFamily", JSValue.str "Mine"), ("color", JSValue.str "red")] k = some v →
      (createFontStyles Platform.ios sampleFonts [] (some "Demo")
          ⟨none, none, [("fontFamily", .str "Mine"), ("color", .str "red")]⟩ none).1.get k
        = some v) ∧
    (∀ (k : String),
      ((createFontStyles Platform.ios sampleFonts [] (some "Demo")
          ⟨none, none, [("fontFamily", .str "Mine"), ("color", .str "red")]⟩ none).1.get k).isSome
        = true →
      (JSMap.get [("fontFamily", JSValue.str "Mine"), ("color", JSValue.str "red")] k).isSome
          = true ∨ k ∈ fontStyleKeys Platform.ios) :=
  createFontStyles_rest Platform.ios sampleFonts [] "Demo" sampleFiles
    ⟨none, none, [("fontFamily", .str "Mine"), ("color", .str "red")]⟩ none
    (by decide) (by decide) (by decide) (by decide)

/-- C20 as stated fails: a cached file is returned as it is. On a fresh
registry whose family lists two files of style "400" and weight 400, the key of
the request holds the second file, which `lookup` returns, and the ranking
returns the first. -/
theorem lookup_cache_not_transparent :
    ¬ ∀ (fonts : Fonts) (calls : List (Option String × LookupOptions)) (family : String)
        (files : List FontFileDefinition) (style : String) (weight : Int),
      family ≠ "" → fonts.get family = some files → files ≠ [] →
        (lookup fonts (runLookups fonts (createFontRegistry fonts) calls) (some family)
            ⟨some style, some weight, some false⟩).1
          = (lookup fonts (runLookups fonts (createFontRegistry fonts) calls) (some family)
            ⟨some style, some weight, some true⟩).1 := by
  intro h
  have h1 := h numeralTwinFonts [] "Num"
    [fontFile "Num-First" 400 "400", fontFile "Num-Second" 400 "400"] "400" 400
    (by decide) (by decide) (by decide)
  revert h1
  decide

/-- C20, amended: after every sequence of `lookup` calls on a fresh registry,
for a family (a non-empty name) that maps to at least one font file, every
weight, and every style that contains no `~` and is neither the text of an
integer nor the text "undefined", `lookup` without `ignoreCache` returns the
same file as `lookup` with `ignoreCache` true, the best-ranked file of the
family for the request. -/
theorem lookup_transparent (fonts : Fonts) (calls : List (Option String × LookupOptions))
    (family : String) (files : List FontFileDefinition) (style : String) (weight : Int)
    (hfam : family ≠ "") (hget : fonts.get family = some files) (hne : files ≠ [])
    (htilde : '~' ∉ style.toList) (hundef : style ≠ "undefined")
    (hnum : ∀ n : Int, style ≠ toString n) :
    (lookup fonts (runLookups fonts (createFontRegistry fonts) calls) (some family)
        ⟨some style, some weight, some false⟩).1
      = (lookup fonts (runLookups fonts (createFontRegistry fonts) calls) (some family)
        ⟨some style, some weight, some true⟩).1 ∧
    (lookup fonts (runLookups fonts (createFontRegistry fonts) calls) (some family)
        ⟨some style, some weight, some true⟩).1
      = bestMatch style weight files := by
  obtain ⟨d, hd⟩ := bestMatch_isSome style weight files hne
  have hkeys := runLookups_weightKeyed fonts calls (createFontRegistry fonts)
    (createFontRegistry_weightKeyed fonts)
  have hmiss := get_styleLast_eq_none _ family style weight hkeys htilde hundef hnum
  have htrue := lookup_valid fonts (runLookups fonts (createFontRegistry fonts) calls) family
    files ⟨some style, some weight, some true⟩ d hfam hget hne hd
  have hfalse := lookup_valid fonts (runLookups fonts (createFontRegistry fonts) calls) family
    files ⟨some style, some weight, some false⟩ d hfam hget hne hd
  simp only [Option.getD_some, if_true] at htrue
  simp only [Option.getD_some, Bool.false_eq_true, if_false, hmiss] at hfalse
  rw [htrue, hfalse]
  exact ⟨rfl, hd.symm⟩

/-- C20, amended, on the example registry after two `lookup` calls: the request
(italic, 100) gets the italic file with and without `ignoreCache`. -/
theorem lookup_transparent_witness :
    (lookup sampleFonts
        (runLookups sampleFonts (createFontRegistry sampleFonts)
          [(some "Demo", ⟨some "bold", some 250, none⟩),
           (some "Demo", ⟨some "italic", some 100, none⟩)])
        (some "Demo") ⟨some "italic", some 100, some false⟩).1
      = some (fontFile "Demo-ThinItalic" 99 "italic") ∧
    ((lookup sampleFonts
          (runLookups sampleFonts (createFontRegistry sampleFonts)
            [(some "Demo", ⟨some "bold", some 250, none⟩),
             (some "Demo", ⟨some "italic", some 100, none⟩)])
          (some "Demo") ⟨some "italic", some 100, some false⟩).1
        = (lookup sampleFonts
          (runLookups sampleFonts (createFontRegistry sampleFonts)
            [(some "Demo", ⟨some "bold", some 250, none⟩),
             (some "Demo", ⟨some "italic", some 100, none⟩)])
          (some "Demo") ⟨some "italic", some 100, some true⟩).1 ∧
      (lookup sampleFonts
          (runLookups sampleFonts (createFontRegistry sampleFonts)
            [(some "Demo", ⟨some "bold", some 250, none⟩),
             (some "Demo", ⟨some "italic", some 100, none⟩)])
          (some "Demo") ⟨some "italic", some 100, some true⟩).1
        = bestMatch "italic" 100 sampleFiles) :=
  ⟨by decide,
    lookup_transparent sampleFonts
      [(some "Demo", ⟨some "bold", some 250, none⟩),
       (some "Demo", ⟨some "italic", some 100, none⟩)]
      "Demo" sampleFiles "italic" 100 (by decide) (by decide) (by decide) (by decide)
      (by decide)
      (intToString_ne_of_char "italic" 'i' (by decide)
        (by intro k hk; interval_cases k <;> decide) (by decide))⟩

/-- C21: for every request the comparator answers 1 or -1, never 0; on two
entries with different indices it answers the opposite when they are swapped;
and when it answers -1 on (a, b) and on (b, c) it answers -1 on (a, c). So
every arrangement of the indexed files of a family in which each element
compares negative with the elements after it is the array that `lookup` sorts,
and its first file is the one `lookup` takes, whatever the sorting algorithm. -/
theorem compareFontFiles_strict_total_order (style : String) (weight : Int) :
    (∀ a b : IndexedFontFile,
      compareFontFiles style weight a b = 1 ∨ compareFontFiles style weight a b = -1) ∧
    (∀ a b : IndexedFontFile, a.index ≠ b.index →
      compareFontFiles style weight a b = -compareFontFiles style weight b a) ∧
    (∀ a b c : IndexedFontFile,
      compareFontFiles style weight a b = -1 → compareFontFiles style weight b c = -1 →
        compareFontFiles style weight a c = -1) ∧
    (∀ (files : List FontFileDefinition) (l : List IndexedFontFile),
      l.Perm (files.mapIdx (fun index file => IndexedFontFile.mk file index)) →
      l.Sorted (fun a b => compareFontFiles style weight a b < 0) →
        l = sortedFontFiles style weight files ∧
        l.head?.map (fun e => e.file) = bestMatch style weight files) := by
  refine ⟨compareFontFiles_values style weight, ?_, ?_, ?_⟩
  · intro a b hab
    have hv1 := compareFontFiles_values style weight a b
    have hv2 := compareFontFiles_values style weight b a
    have h1 := compareFontFiles_neg_iff style weight a b
    have h2 := compareFontFiles_neg_iff style weight b a
    rcases hv1 with hv1 | hv1 <;> rcases hv2 with hv2 | hv2
    · exfalso
      rcases compareFontFiles_total style weight a b with h | h <;> omega
    · omega
    · omega
    · exfalso
      have ha : compareFontFiles style weight a b < 0 := by omega
      have hb : compareFontFiles style weight b a < 0 := by omega
      have ha2 := h1.mp ha
      have hb2 := h2.mp hb
      omega
  · intro a b c hab hbc
    have hlt := compareFontFiles_trans style weight a b c (by omega) (by omega)
    rcases compareFontFiles_values style weight a c with h | h
    · omega
    · exact h
  · intro files l hperm hsorted
    have heq := sortedFontFiles_unique style weight files l hperm hsorted
    refine ⟨heq, ?_⟩
    rw [heq]
    rfl

/-- C22: after every sequence of `findInCache`, `lookup` and `createFontStyles`
calls on a registry, every file that the cache holds is in the list of some
family of the registry; so is every file that `findInCache` or `lookup` then
returns. -/
theorem cache_values_registered (fonts : Fonts) (calls : List Call) :
    (∀ e ∈ runCalls fonts (createFontRegistry fonts) calls, Registered fonts e.2) ∧
    (∀ (k : String) (d : FontFileDefinition),
      (runCalls fonts (createFontRegistry fonts) calls).get k = some d →
        Registered fonts d) ∧
    (∀ (family style : String) (weight : Int) (d : FontFileDefinition),
      findInCache (runCalls fonts (createFontRegistry fonts) calls) family style weight
          = some d →
        Registered fonts d) ∧
    (∀ (family : Option String) (options : LookupOptions) (d : FontFileDefinition),
      (lookup fonts (runCalls fonts (createFontRegistry fonts) calls) family options).1
          = some d →
        Registered fonts d) := by
  have hinv := runCalls_registered fonts calls (createFontRegistry fonts)
    (createFontRegistry_registered fonts)
  refine ⟨hinv, ?_, ?_, ?_⟩
  · intro k d hk
    exact hinv _ (JSMap.mem_keys_of_get _ k d hk)
  · intro family style weight d hfind
    exact hinv _ (JSMap.mem_keys_of_get _ _ d hfind)
  · intro family options d hd
    exact (lookup_registered fonts _ family options hinv).1 d hd

end FontRegistry



